import Mathlib

/-!
The spec and doc generator of corectl, `pkg/commands/standard/generate.go`.

A shallow embedding of the spec/doc generator of corectl and the properties of
its command-tree walker, flag extractor, JSON spec emitter and markdown
callbacks.

Conventions of the embedding.

* A Go `string` that the source reads or uses as a key is a Lean `String`
  (well-formed UTF-8); the helpers work on the list of its characters. The
  separators the source looks for (`/`, `.`, `_`, `v`, white space) are single
  code points, so working on characters and working on bytes agree.
* The description of a command (`Long`), which the source hands to the encoder
  unread, is a `GoString`: a Go string as it is, which may hold bytes that
  are not UTF-8. For every other string well-formed UTF-8 is a standing
  assumption of the embedding; it bears on the round trip of C13 only, where
  it is stated.
* A Go `map[string]T` is an association list `GoMap T` with pairwise distinct
  keys; `GoMap.assign` is the statement `m[k] = v` and `GoMap.index` the
  expression `m[k]` with the comma-ok result.
* A cobra command is a finite tree `Command`; `Commands` is the slice
  `ccmd.Commands()` returns and `LocalFlags` the flags in the order
  `VisitAll` visits them.
* A run-time panic (the index `[0]` on an empty slice) is the result `none`.
* `filepath.Base` is the Unix one: the separator is `/` and there is no
  volume name.
-/

namespace Standard

/-! ## Go library helpers used by the source -/

/-- Go `unicode.IsSpace`: the Latin-1 spaces and the code points with the
White_Space property. -/
def isSpace (c : Char) : Bool :=
  let n := c.toNat
  n == 0x09 || n == 0x0A || n == 0x0B || n == 0x0C || n == 0x0D || n == 0x20 ||
  n == 0x85 || n == 0xA0 || n == 0x1680 || (0x2000 ≤ n && n ≤ 0x200A) ||
  n == 0x2028 || n == 0x2029 || n == 0x202F || n == 0x205F || n == 0x3000

/-- The scanning loop of `strings.Fields`: `cur` is the token being read,
in reverse. -/
def fieldsLoop : List Char → List Char → List (List Char)
  | cur, [] => if cur.isEmpty then [] else [cur.reverse]
  | cur, c :: cs =>
    if isSpace c then
      (if cur.isEmpty then fieldsLoop [] cs else cur.reverse :: fieldsLoop [] cs)
    else fieldsLoop (c :: cur) cs

/-- Go `strings.Fields`: the maximal runs of non-space characters, in order. -/
def Fields (s : String) : List String :=
  (fieldsLoop [] s.data).map String.mk

/-- Go `strings.HasPrefix`. -/
def hasPrefix (s p : List Char) : Bool :=
  s.take p.length == p

/-- Go `strings.HasSuffix`. -/
def hasSuffix (s p : List Char) : Bool :=
  s.drop (s.length - p.length) == p && decide (p.length ≤ s.length)

/-- Go `strings.TrimPrefix`: `s` without the leading `p` when it has one. -/
def TrimPrefix (s p : String) : String :=
  if hasPrefix s.data p.data then ⟨s.data.drop p.data.length⟩ else s

/-- Go `strings.TrimSuffix`: `s` without the trailing `p` when it has one. -/
def TrimSuffix (s p : String) : String :=
  if hasSuffix s.data p.data then ⟨s.data.take (s.data.length - p.data.length)⟩ else s

/-- The loop of `strings.Replace` for a non-empty `old` and `n = -1`: `skip`
counts the characters of a match still to be passed over. -/
def replaceLoop (old new : List Char) : Nat → List Char → List Char
  | _, [] => []
  | skip + 1, _ :: cs => replaceLoop old new skip cs
  | 0, c :: cs =>
    if hasPrefix (c :: cs) old then new ++ replaceLoop old new (old.length - 1) cs
    else c :: replaceLoop old new 0 cs

/-- Go `strings.Replace(s, old, new, -1)`: every non-overlapping occurrence of
`old` replaced, left to right; an empty `old` matches before every character
and at the end. -/
def ReplaceAll (s old new : String) : String :=
  if old.data.isEmpty then ⟨new.data ++ s.data.flatMap (fun c => c :: new.data)⟩
  else ⟨replaceLoop old.data new.data 0 s.data⟩

/-- Go `unicode.ToLower` on ASCII; outside ASCII the case table of the Go
runtime, which is not part of this repository, is the parameter `tbl`. -/
def toLowerRune (tbl : Char → Char) (c : Char) : Char :=
  if c.toNat < 128 then (if 'A'.toNat ≤ c.toNat ∧ c.toNat ≤ 'Z'.toNat then Char.ofNat (c.toNat + 32) else c)
  else tbl c

/-- Go `strings.ToLower`. -/
def ToLower (tbl : Char → Char) (s : String) : String :=
  ⟨s.data.map (toLowerRune tbl)⟩

/-- The loop of `path.Ext`, run over the reversed path with the characters
already passed in `acc`: stop at the first `/`, return from the first `.`. -/
def extLoop : List Char → List Char → List Char
  | _, [] => []
  | acc, c :: cs =>
    if c = '/' then [] else if c = '.' then c :: acc else extLoop (c :: acc) cs

/-- Go `path.Ext`: the suffix beginning at the final dot of the final
slash-separated element, empty if there is no dot. -/
def Ext (p : String) : String :=
  ⟨extLoop [] p.data.reverse⟩

/-- Go `filepath.Base` with the separator `/` and no volume name. -/
def Base (p : String) : String :=
  if p.data.isEmpty then "."
  else
    let stripped := (p.data.reverse.dropWhile (fun c => c == '/'))
    let last := (stripped.takeWhile (fun c => c != '/')).reverse
    if last.isEmpty then "/" else ⟨last⟩

/-- The suffix `fmt.Sprintf` adds for operands no verb has used. -/
def sprintfExtra : List String → List Char
  | [] => []
  | a :: rest =>
    "%!(EXTRA string=".data ++ a.data ++
      (rest.flatMap (fun b => ", string=".data ++ b.data)) ++ [')']

/-- Go `fmt.Sprintf` for a format whose verbs are `%s` and `%%`, with string
operands. -/
def sprintfLoop : List Char → List String → List Char
  | [], args => sprintfExtra args
  | '%' :: 's' :: rest, a :: args => a.data ++ sprintfLoop rest args
  | '%' :: 's' :: rest, [] => "%!s(MISSING)".data ++ sprintfLoop rest []
  | '%' :: '%' :: rest, args => '%' :: sprintfLoop rest args
  | c :: rest, args => c :: sprintfLoop rest args

/-- Go `fmt.Sprintf`. -/
def Sprintf (format : String) (args : List String) : String :=
  ⟨sprintfLoop format.data args⟩

/-! ## Go maps with string keys -/

/-- A Go `map[string]T`. -/
abbrev GoMap (α : Type) := List (String × α)

/-- The statement `m[k] = v`. -/
def GoMap.assign {α : Type} (k : String) (v : α) : GoMap α → GoMap α
  | [] => [(k, v)]
  | (k', v') :: rest =>
    if k' = k then (k, v) :: rest else (k', v') :: GoMap.assign k v rest

/-- The expression `v, ok := m[k]`. -/
def GoMap.index {α : Type} (k : String) : GoMap α → Option α
  | [] => none
  | (k', v') :: rest => if k' = k then some v' else GoMap.index k rest

/-- The keys of a map. -/
def GoMap.keys {α : Type} (m : GoMap α) : List String :=
  m.map Prod.fst

/-! ## Go strings that need not be UTF-8 -/

/-- One step of reading a Go string as UTF-8: a code point, or a byte at which
no well-formed sequence starts (where `utf8.DecodeRuneInString` returns
`RuneError` with width 1). -/
inductive GoUnit where
  | rune (c : Char)
  | byte (b : Nat)
deriving DecidableEq, Repr

/-- A Go `string` as it is: code points and bytes that are not UTF-8. -/
abbrev GoString := List GoUnit

/-- A string of well-formed UTF-8 as a Go string. -/
def GoString.ofString (s : String) : GoString :=
  s.data.map GoUnit.rune

instance : Coe String GoString := ⟨GoString.ofString⟩

/-- The unit is a code point. -/
def GoUnit.isRune : GoUnit → Bool
  | GoUnit.rune _ => true
  | GoUnit.byte _ => false

/-- The Go string is well-formed UTF-8. -/
def GoString.isUTF8 (u : GoString) : Bool :=
  u.all GoUnit.isRune

/-- The code point a unit is read as: a byte that is not UTF-8 is read as the
replacement character `U+FFFD`. -/
def GoUnit.toChar : GoUnit → Char
  | GoUnit.rune c => c
  | GoUnit.byte _ => Char.ofNat 0xFFFD

/-- The Go string read as UTF-8, each byte that is not UTF-8 replaced by
`U+FFFD`. -/
def GoString.toValid (u : GoString) : String :=
  ⟨u.map GoUnit.toChar⟩

/-! ## The data model -/

/-- The fields of a `pflag.Flag` the source reads. -/
structure Flag where
  Name : String
  Shorthand : String
  Usage : String
  DefValue : String
  Deprecated : String
deriving DecidableEq, Repr

/-- The part of a `cobra.Command` the source reads. -/
structure Command where
  Use : String
  Long : GoString
  Deprecated : String
  Aliases : List String
  Annotations : GoMap String
  LocalFlags : List Flag
  Commands : List Command

/-- The struct `flagJSON`. -/
structure flagJSON where
  Shorthand : String
  Usage : String
  DefValue : String
  Deprecated : String
deriving DecidableEq, Repr

/-- The struct `commandJSON`. -/
structure commandJSON where
  Alias : String
  Long : GoString
  Stability : String
  Deprecated : String
  Flags : GoMap flagJSON
  SubCommands : List (String × commandJSON)

/-- The struct `info`. -/
structure info where
  Title : String
  Description : GoString
  Version : String
  License : String
deriving DecidableEq, Repr

/-- The struct `spec`. -/
structure spec where
  Name : String
  Info : info
  Clispec : String
  Stability : String
  Flags : GoMap flagJSON
  SubCommands : GoMap commandJSON

/-! ## The walker and the flag extractor -/

/-- The function `returnAlias`. -/
def returnAlias (aliases : List String) : String :=
  match aliases with
  | a :: _ => a
  | [] => ""

/-- The function `returnStability`: indexing a map gives the zero value for
an absent key. -/
def returnStability (annotations : GoMap String) : String :=
  (GoMap.index "x-qlik-stability" annotations).getD ""

/-- The closure `flag` of `returnFlags`. -/
def flagRecord (f : Flag) : flagJSON :=
  { Shorthand := f.Shorthand, Usage := f.Usage, DefValue := f.DefValue, Deprecated := f.Deprecated }

/-- The function `returnFlags`: `VisitAll` calls the closure on every flag of
the set, and the closure assigns the record under the name of the flag. -/
def returnFlags (flags : List Flag) : GoMap flagJSON :=
  flags.foldl (fun m f => GoMap.assign f.Name (flagRecord f) m) []

mutual
/-- The function `returnCmdspec`. -/
def returnCmdspec : Command → Option commandJSON
  | ⟨_, long, deprecated, aliases, annotations, localFlags, commands⟩ =>
    match returnCommandsLoop commands [] with
    | none => none
    | some subs =>
      some { Alias := returnAlias aliases, Long := long, Deprecated := deprecated,
             SubCommands := subs, Flags := returnFlags localFlags,
             Stability := returnStability annotations }
/-- The `for` loop of `returnCommands` over the commands still to visit, with
the map built so far. The index `[0]` on an empty `Fields` result panics. -/
def returnCommandsLoop : List Command → GoMap commandJSON → Option (GoMap commandJSON)
  | [], acc => some acc
  | command :: rest, acc =>
    match Fields command.Use with
    | [] => none
    | key :: _ =>
      match returnCmdspec command with
      | none => none
      | some r => returnCommandsLoop rest (GoMap.assign key r acc)
end

/-- The function `returnCommands`. -/
def returnCommands (commands : List Command) : Option (GoMap commandJSON) :=
  returnCommandsLoop commands []

/-- The struct literal `spec{...}` built in `CreateGenerateSpecCommand`, for
the root command `ccmd.Root()`. -/
def buildSpec (root : Command) (version : String) : Option spec :=
  match returnCommands root.Commands with
  | none => none
  | some subs =>
    some { Clispec := "0.1.0", Name := root.Use,
           Info := { Title := "Specification for corectl", Description := root.Long,
                     Version := TrimPrefix version "v", License := "MIT" },
           SubCommands := subs, Flags := returnFlags root.LocalFlags,
           Stability := returnStability root.Annotations }

/-! ## The JSON encoder (`encoding/json`) on the structs of the source -/

/-- The JSON values the structs of the source encode to: strings and objects
with their members in output order. `str` is a string of well-formed UTF-8,
`raw` a Go string that holds a byte that is not UTF-8. -/
inductive JSON where
  | str : String → JSON
  | raw : GoString → JSON
  | obj : List (String × JSON) → JSON

/-- The JSON value of a Go string. -/
def JSON.ofGoString (u : GoString) : JSON :=
  if u.isUTF8 then JSON.str u.toValid else JSON.raw u

/-- A lower-case hexadecimal digit. -/
def hexDigit (n : Nat) : Char :=
  if n < 10 then Char.ofNat (48 + n) else Char.ofNat (87 + n)

/-- The escape `encoding/json` writes for one character of a string, with
HTML escaping on as in `json.Marshal`: the quote and the backslash get a
backslash, line feed, carriage return and tab their short form, the other
control characters and `<`, `>`, `&` the form `\u00XX`, and the line and
paragraph separators `\u2028`, `\u2029`. Backspace and form feed are written
in short form, as Go does from release 1.22 on. -/
def escapeRune (c : Char) : List Char :=
  if c = '"' then ['\\', '"']
  else if c = '\\' then ['\\', '\\']
  else if c = '\n' then ['\\', 'n']
  else if c = '\r' then ['\\', 'r']
  else if c = '\t' then ['\\', 't']
  else if c.toNat = 8 then ['\\', 'b']
  else if c.toNat = 12 then ['\\', 'f']
  else if c.toNat < 0x20 || c = '<' || c = '>' || c = '&' then
    ['\\', 'u', '0', '0', hexDigit (c.toNat / 16), hexDigit (c.toNat % 16)]
  else if c.toNat = 0x2028 then ['\\', 'u', '2', '0', '2', '8']
  else if c.toNat = 0x2029 then ['\\', 'u', '2', '0', '2', '9']
  else [c]

/-- A JSON string literal. -/
def encodeString (s : String) : List Char :=
  '"' :: (s.data.flatMap escapeRune ++ ['"'])

/-- The text `encoding/json` writes for one unit of a Go string: the escape
of a code point, and the six characters `\ufffd` for a byte that is not
UTF-8. -/
def escapeUnit : GoUnit → List Char
  | GoUnit.rune c => escapeRune c
  | GoUnit.byte _ => ['\\', 'u', 'f', 'f', 'f', 'd']

/-- The JSON string literal of a Go string. -/
def encodeGoString (u : GoString) : List Char :=
  '"' :: (u.flatMap escapeUnit ++ ['"'])

mutual
/-- The text `json.Marshal` writes for a value: no white space. -/
def JSON.compact : JSON → List Char
  | .str s => encodeString s
  | .raw u => encodeGoString u
  | .obj ms => '\x7b' :: (JSON.compactMembers ms ++ ['\x7d'])
/-- The members of an object, separated by commas. -/
def JSON.compactMembers : List (String × JSON) → List Char
  | [] => []
  | [(k, v)] => encodeString k ++ ':' :: JSON.compact v
  | (k, v) :: m :: rest =>
    encodeString k ++ ':' :: (JSON.compact v ++ ',' :: JSON.compactMembers (m :: rest))
end

/-- A line break followed by the indentation of nesting level `depth`, two
spaces a level. -/
def newline (depth : Nat) : List Char :=
  '\n' :: List.replicate (2 * depth) ' '

mutual
/-- The text `json.MarshalIndent(v, "", "  ")` writes for a value at nesting
level `depth`: each member on a line of its own, a space after the colon, an
empty object as an opening and a closing brace with nothing between. -/
def JSON.indented : Nat → JSON → List Char
  | _, .str s => encodeString s
  | _, .raw u => encodeGoString u
  | _, .obj [] => ['\x7b', '\x7d']
  | depth, .obj (m :: ms) =>
    '\x7b' :: (newline (depth + 1) ++ JSON.indentedMembers (depth + 1) (m :: ms) ++
      newline depth ++ ['\x7d'])
/-- The members of an object at nesting level `depth`. -/
def JSON.indentedMembers : Nat → List (String × JSON) → List Char
  | _, [] => []
  | depth, [(k, v)] => encodeString k ++ ':' :: ' ' :: JSON.indented depth v
  | depth, (k, v) :: m :: rest =>
    encodeString k ++ ':' :: ' ' :: (JSON.indented depth v ++
      ',' :: (newline depth ++ JSON.indentedMembers depth (m :: rest)))
end

/-- The byte order of two strings, in which `encoding/json` sorts map keys. -/
def keyLess : List Char → List Char → Bool
  | [], [] => false
  | [], _ :: _ => true
  | _ :: _, [] => false
  | a :: as, b :: bs =>
    if a.toNat < b.toNat then true else if a.toNat = b.toNat then keyLess as bs else false

/-- Insert a member into members sorted by key. -/
def insertMember (e : String × JSON) : List (String × JSON) → List (String × JSON)
  | [] => [e]
  | x :: rest => if keyLess x.1.data e.1.data then x :: insertMember e rest else e :: x :: rest

/-- The members of a map sorted by key. -/
def sortMembers : List (String × JSON) → List (String × JSON)
  | [] => []
  | e :: rest => insertMember e (sortMembers rest)

/-- A string field tagged `omitempty`: no member when the string is empty. -/
def omitEmpty (key value : String) : List (String × JSON) :=
  if value.data.isEmpty then [] else [(key, JSON.str value)]

/-- A Go string field tagged `omitempty`: no member when the string is
empty. -/
def omitEmptyGo (key : String) (value : GoString) : List (String × JSON) :=
  if value.isEmpty then [] else [(key, JSON.ofGoString value)]

/-- A map field tagged `omitempty`: no member when the map has no entry. -/
def omitEmptyMap (key : String) (members : List (String × JSON)) : List (String × JSON) :=
  if members.isEmpty then [] else [(key, JSON.obj (sortMembers members))]

/-- The members of a `flagJSON`, in field order. -/
def flagJSON.members (f : flagJSON) : List (String × JSON) :=
  omitEmpty "alias" f.Shorthand ++ omitEmpty "description" f.Usage ++
  omitEmpty "default" f.DefValue ++ omitEmpty "deprecated" f.Deprecated

/-- The encoding of a `flagJSON`. -/
def flagJSON.toJSON (f : flagJSON) : JSON :=
  JSON.obj f.members

/-- The encoding of the entries of a `map[string]flagJSON`. -/
def flagsToJSON (m : GoMap flagJSON) : List (String × JSON) :=
  m.map (fun e => (e.1, e.2.toJSON))

mutual
/-- The encoding of a `commandJSON`. -/
def commandJSON.toJSON : commandJSON → JSON
  | ⟨al, long, stability, deprecated, flags, subs⟩ =>
    JSON.obj (omitEmpty "alias" al ++ omitEmptyGo "description" long ++
      omitEmpty "x-qlik-stability" stability ++ omitEmpty "deprecated" deprecated ++
      omitEmptyMap "flags" (flagsToJSON flags) ++
      omitEmptyMap "commands" (commandsToJSON subs))
/-- The encoding of the entries of a `map[string]commandJSON`. -/
def commandsToJSON : List (String × commandJSON) → List (String × JSON)
  | [] => []
  | (k, c) :: rest => (k, commandJSON.toJSON c) :: commandsToJSON rest
end

/-- The encoding of an `info`: `version` has no `omitempty`. -/
def info.toJSON (i : info) : JSON :=
  JSON.obj (omitEmpty "title" i.Title ++ omitEmptyGo "description" i.Description ++
    [("version", JSON.str i.Version)] ++ omitEmpty "license" i.License)

/-- The encoding of a `spec`: a struct is never empty, so `info` is always
a member. -/
def spec.toJSON (s : spec) : JSON :=
  JSON.obj (omitEmpty "name" s.Name ++ [("info", s.Info.toJSON)] ++
    omitEmpty "clispec" s.Clispec ++ omitEmpty "x-qlik-stability" s.Stability ++
    omitEmptyMap "flags" (flagsToJSON s.Flags) ++
    omitEmptyMap "commands" (commandsToJSON s.SubCommands))

/-- Go `json.Marshal`. -/
def Marshal (v : JSON) : String :=
  ⟨JSON.compact v⟩

/-- The constant `maxNestingDepth` of `encoding/json`: the scanner, which
both the indenting pass of `MarshalIndent` and the decoder run, stops with
the error `exceeded max depth` at an object nested deeper than this. -/
def maxNestingDepth : Nat := 10000

mutual
/-- The number of objects nested in each other in a value, the value
included. -/
def JSON.depth : JSON → Nat
  | .str _ => 0
  | .raw _ => 0
  | .obj ms => 1 + JSON.membersDepth ms
/-- The largest depth of the values of the members. -/
def JSON.membersDepth : List (String × JSON) → Nat
  | [] => 0
  | (_, v) :: rest => max (JSON.depth v) (JSON.membersDepth rest)
end

mutual
/-- Every string of the value is well-formed UTF-8. -/
def JSON.noRaw : JSON → Bool
  | .str _ => true
  | .raw _ => false
  | .obj ms => JSON.membersNoRaw ms
/-- Every string of the values of the members is well-formed UTF-8. -/
def JSON.membersNoRaw : List (String × JSON) → Bool
  | [] => true
  | (_, v) :: rest => JSON.noRaw v && JSON.membersNoRaw rest
end

/-- The text Go `json.MarshalIndent(v, "", "  ")` returns when it returns no
error. -/
def MarshalIndent (v : JSON) : String :=
  ⟨JSON.indented 0 v⟩

/-- Go `json.MarshalIndent` returns an error: the value nests deeper than the
scanner of its indenting pass allows. -/
def indentFails (v : JSON) : Bool :=
  decide (maxNestingDepth < JSON.depth v)

/-- The bytes `Run` of `CreateGenerateSpecCommand` writes to `./docs/spec.json`:
the text of `json.MarshalIndent`, and nothing when `json.MarshalIndent`
returns an error, which `Run` prints before it writes the nil slice. -/
def generateSpec (root : Command) (version : String) : Option String :=
  (buildSpec root version).map
    (fun s => if indentFails s.toJSON then "" else MarshalIndent s.toJSON)

/-! ## The markdown callbacks -/

/-- The constant `fmTemplate`. -/
def fmTemplate : String :=
  "---\ntitle: \"%s\"\ndescription: \"%s\"\ncategories: Libraries & Tools\ntype: Commands\ntags: qlik-cli\nproducts: Qlik Cloud, QSEoK\n---\n"

/-- The closure `filePrepender` of `CreateGenerateDocsCommand`. -/
def filePrepender (filename : String) : String :=
  let name := Base filename
  let base := TrimSuffix name (Ext name)
  Sprintf fmTemplate [ReplaceAll base "_" " ", ReplaceAll base "_" " "]

/-- The closure `linkHandler` of `CreateGenerateDocsCommand`. -/
def linkHandler (tbl : Char → Char) (name : String) : String :=
  let base := TrimSuffix name (Ext name)
  "/libraries-and-tools/" ++ ToLower tbl (ReplaceAll base "_" "-")

/-! ## The JSON decoder (`encoding/json`) on the texts the encoder writes

`json.Unmarshal` is modelled in two steps: the text is read into a `JSON`
value, and the value is stored into the struct. The model covers what the
structs of the source can hold, objects and strings: any other JSON value
(a number, an array, a literal) makes the model fail, as do control
characters in a string and text after the value. A `\u` escape of a
surrogate half gives the replacement character, pairs are not combined; a
key selects a struct field when it is the name of the field up to the case
of ASCII letters. The encoder writes none of these. An object nested deeper
than `maxNestingDepth` makes the decoder fail, as in Go. -/

/-- The white space of JSON. -/
def isJSONSpace (c : Char) : Bool :=
  c == ' ' || c == '\t' || c == '\r' || c == '\n'

/-- The text without its leading white space. -/
def skipSpace (text : List Char) : List Char :=
  text.dropWhile isJSONSpace

/-- The value of a hexadecimal digit. -/
def hexValue (c : Char) : Option Nat :=
  if 48 ≤ c.toNat ∧ c.toNat ≤ 57 then some (c.toNat - 48)
  else if 97 ≤ c.toNat ∧ c.toNat ≤ 102 then some (c.toNat - 87)
  else if 65 ≤ c.toNat ∧ c.toNat ≤ 70 then some (c.toNat - 55)
  else none

/-- The character a `\u` escape with the four given digits stands for. -/
def unicodeEscape (a b c d : Char) : Option Char :=
  match hexValue a, hexValue b, hexValue c, hexValue d with
  | some x, some y, some z, some w =>
    let n := ((x * 16 + y) * 16 + z) * 16 + w
    if 0xD800 ≤ n ∧ n < 0xE000 then some (Char.ofNat 0xFFFD) else some (Char.ofNat n)
  | _, _, _, _ => none

/-- The character a backslash followed by `e` stands for, for the escapes of
one character. -/
def simpleEscape (e : Char) : Option Char :=
  if e = '"' then some '"'
  else if e = '\\' then some '\\'
  else if e = '/' then some '/'
  else if e = 'b' then some (Char.ofNat 8)
  else if e = 'f' then some (Char.ofNat 12)
  else if e = 'n' then some '\n'
  else if e = 'r' then some '\r'
  else if e = 't' then some '\t'
  else none

/-- The loop that reads a string literal after its opening quote: `acc` holds
the characters read so far, in reverse. The result is the string and the
text after the closing quote. -/
def unquoteLoop : List Char → List Char → Option (String × List Char)
  | _, [] => none
  | acc, c :: rest =>
    if c = '"' then some (⟨acc.reverse⟩, rest)
    else if c = '\\' then
      match rest with
      | [] => none
      | e :: rest1 =>
        if e = 'u' then
          match rest1 with
          | a :: b :: c1 :: d :: rest2 =>
            match unicodeEscape a b c1 d with
            | some r => unquoteLoop (r :: acc) rest2
            | none => none
          | _ => none
        else
          match simpleEscape e with
          | some r => unquoteLoop (r :: acc) rest1
          | none => none
    else if c.toNat < 0x20 then none
    else unquoteLoop (c :: acc) rest

/-- Read a string literal at the head of the text. -/
def parseString (text : List Char) : Option (String × List Char) :=
  match text with
  | c :: rest => if c = '"' then unquoteLoop [] rest else none
  | [] => none

mutual
/-- Read a value at the head of the text, after white space: a string
literal or an object. `fuel` bounds the number of steps; the length of the
text is always enough. `nesting` is the number of objects the value lies in:
an object that would be number `maxNestingDepth + 1` is an error. -/
def parseValue : Nat → Nat → List Char → Option (JSON × List Char)
  | 0, _, _ => none
  | fuel + 1, nesting, text =>
    match skipSpace text with
    | [] => none
    | c :: rest =>
      if c = '"' then
        match unquoteLoop [] rest with
        | some (s, rest1) => some (JSON.str s, rest1)
        | none => none
      else if c = '\x7b' then
        if maxNestingDepth ≤ nesting then none
        else
          match skipSpace rest with
          | [] => none
          | c1 :: rest1 =>
            if c1 = '\x7d' then some (JSON.obj [], rest1)
            else
              match parseMembers fuel (nesting + 1) (c1 :: rest1) with
              | some (ms, rest2) => some (JSON.obj ms, rest2)
              | none => none
      else none
/-- Read the members of an object up to and including its closing brace. -/
def parseMembers : Nat → Nat → List Char → Option (List (String × JSON) × List Char)
  | 0, _, _ => none
  | fuel + 1, nesting, text =>
    match parseString (skipSpace text) with
    | none => none
    | some (k, rest) =>
      match skipSpace rest with
      | [] => none
      | c :: rest1 =>
        if c = ':' then
          match parseValue fuel nesting rest1 with
          | none => none
          | some (v, rest2) =>
            match skipSpace rest2 with
            | [] => none
            | c2 :: rest3 =>
              if c2 = ',' then
                match parseMembers fuel nesting rest3 with
                | some (ms, rest4) => some ((k, v) :: ms, rest4)
                | none => none
              else if c2 = '\x7d' then some ([(k, v)], rest3)
              else none
        else none
end

/-- Read a whole document: one value, then white space only. -/
def parseDocument (text : String) : Option JSON :=
  match parseValue (text.data.length + 1) 0 text.data with
  | some (v, rest) => if (skipSpace rest).isEmpty then some v else none
  | none => none

/-- The lower-case form of an ASCII letter. -/
def asciiLower (c : Char) : Char :=
  if 65 ≤ c.toNat ∧ c.toNat ≤ 90 then Char.ofNat (c.toNat + 32) else c

/-- The key selects the struct field with the given (lower-case) name. -/
def fieldNamed (name key : String) : Bool :=
  key.data.map asciiLower == name.data

/-- Store a JSON value into a `string`: only a string fits. What is read
from a text is well-formed UTF-8: a string that holds bytes that are not
UTF-8 is read back from its text with `U+FFFD` in their place. -/
def decodeString : JSON → Option String
  | JSON.str s => some s
  | JSON.raw u => some u.toValid
  | JSON.obj _ => none

/-- Store a JSON value into the `string` of a description. -/
def decodeGoString (v : JSON) : Option GoString :=
  (decodeString v).map GoString.ofString

/-- Store the members of an object into a `flagJSON`, one after the other;
a key that names no field is skipped. -/
def flagJSON.decodeFields : List (String × JSON) → flagJSON → Option flagJSON
  | [], f => some f
  | (k, v) :: rest, f =>
    if fieldNamed "alias" k then
      (decodeString v).bind (fun s => flagJSON.decodeFields rest { f with Shorthand := s })
    else if fieldNamed "description" k then
      (decodeString v).bind (fun s => flagJSON.decodeFields rest { f with Usage := s })
    else if fieldNamed "default" k then
      (decodeString v).bind (fun s => flagJSON.decodeFields rest { f with DefValue := s })
    else if fieldNamed "deprecated" k then
      (decodeString v).bind (fun s => flagJSON.decodeFields rest { f with Deprecated := s })
    else flagJSON.decodeFields rest f

/-- Store a JSON value into a zero `flagJSON`. -/
def flagJSON.ofJSON : JSON → Option flagJSON
  | JSON.obj ms => flagJSON.decodeFields ms ⟨"", "", "", ""⟩
  | JSON.str _ => none
  | JSON.raw _ => none

/-- Store the members of an object into a `map[string]flagJSON`: each value
is stored into a zero record, which is assigned under the key. -/
def decodeFlagMap : List (String × JSON) → GoMap flagJSON → Option (GoMap flagJSON)
  | [], m => some m
  | (k, v) :: rest, m =>
    (flagJSON.ofJSON v).bind (fun f => decodeFlagMap rest (GoMap.assign k f m))

/-- Store a JSON value into a `map[string]flagJSON`. -/
def decodeFlags (v : JSON) (m : GoMap flagJSON) : Option (GoMap flagJSON) :=
  match v with
  | JSON.obj ms => decodeFlagMap ms m
  | JSON.str _ => none
  | JSON.raw _ => none

mutual
/-- Store a JSON value into a zero `commandJSON`. -/
def commandJSON.ofJSON : JSON → Option commandJSON
  | JSON.obj ms => commandJSON.decodeFields ms ⟨"", [], "", "", [], []⟩
  | JSON.str _ => none
  | JSON.raw _ => none
/-- Store the members of an object into a `commandJSON`. -/
def commandJSON.decodeFields : List (String × JSON) → commandJSON → Option commandJSON
  | [], c => some c
  | (k, v) :: rest, c =>
    if fieldNamed "alias" k then
      (decodeString v).bind (fun s => commandJSON.decodeFields rest { c with Alias := s })
    else if fieldNamed "description" k then
      (decodeGoString v).bind (fun s => commandJSON.decodeFields rest { c with Long := s })
    else if fieldNamed "x-qlik-stability" k then
      (decodeString v).bind (fun s => commandJSON.decodeFields rest { c with Stability := s })
    else if fieldNamed "deprecated" k then
      (decodeString v).bind (fun s => commandJSON.decodeFields rest { c with Deprecated := s })
    else if fieldNamed "flags" k then
      (decodeFlags v c.Flags).bind (fun m => commandJSON.decodeFields rest { c with Flags := m })
    else if fieldNamed "commands" k then
      (decodeCommands v c.SubCommands).bind
        (fun m => commandJSON.decodeFields rest { c with SubCommands := m })
    else commandJSON.decodeFields rest c
/-- Store a JSON value into a `map[string]commandJSON`. -/
def decodeCommands : JSON → List (String × commandJSON) →
    Option (List (String × commandJSON))
  | JSON.obj ms, m => decodeCommandMap ms m
  | JSON.str _, _ => none
  | JSON.raw _, _ => none
/-- Store the members of an object into a `map[string]commandJSON`. -/
def decodeCommandMap : List (String × JSON) → List (String × commandJSON) →
    Option (List (String × commandJSON))
  | [], m => some m
  | (k, v) :: rest, m =>
    (commandJSON.ofJSON v).bind (fun c => decodeCommandMap rest (GoMap.assign k c m))
end

/-- Store the members of an object into an `info`. -/
def info.decodeFields : List (String × JSON) → info → Option info
  | [], i => some i
  | (k, v) :: rest, i =>
    if fieldNamed "title" k then
      (decodeString v).bind (fun s => info.decodeFields rest { i with Title := s })
    else if fieldNamed "description" k then
      (decodeGoString v).bind (fun s => info.decodeFields rest { i with Description := s })
    else if fieldNamed "version" k then
      (decodeString v).bind (fun s => info.decodeFields rest { i with Version := s })
    else if fieldNamed "license" k then
      (decodeString v).bind (fun s => info.decodeFields rest { i with License := s })
    else info.decodeFields rest i

/-- Store a JSON value into an `info` that already has a value. -/
def info.decode (v : JSON) (i : info) : Option info :=
  match v with
  | JSON.obj ms => info.decodeFields ms i
  | JSON.str _ => none
  | JSON.raw _ => none

/-- Store the members of an object into a `spec`. -/
def spec.decodeFields : List (String × JSON) → spec → Option spec
  | [], s => some s
  | (k, v) :: rest, s =>
    if fieldNamed "name" k then
      (decodeString v).bind (fun x => spec.decodeFields rest { s with Name := x })
    else if fieldNamed "info" k then
      (info.decode v s.Info).bind (fun x => spec.decodeFields rest { s with Info := x })
    else if fieldNamed "clispec" k then
      (decodeString v).bind (fun x => spec.decodeFields rest { s with Clispec := x })
    else if fieldNamed "x-qlik-stability" k then
      (decodeString v).bind (fun x => spec.decodeFields rest { s with Stability := x })
    else if fieldNamed "flags" k then
      (decodeFlags v s.Flags).bind (fun m => spec.decodeFields rest { s with Flags := m })
    else if fieldNamed "commands" k then
      (decodeCommands v s.SubCommands).bind
        (fun m => spec.decodeFields rest { s with SubCommands := m })
    else spec.decodeFields rest s

/-- Store a JSON value into a zero `spec`. -/
def spec.ofJSON : JSON → Option spec
  | JSON.obj ms => spec.decodeFields ms ⟨"", ⟨"", [], "", ""⟩, "", "", [], []⟩
  | JSON.str _ => none
  | JSON.raw _ => none

/-- Go `json.Unmarshal(text, &s)` for a zero `s` of type `spec`. -/
def Unmarshal (text : String) : Option spec :=
  (parseDocument text).bind spec.ofJSON

/-- Decode a document into the envelope and encode the envelope again with
the same indentation: no text when `json.Unmarshal` or `json.MarshalIndent`
returns an error. -/
def reencode (text : String) : Option String :=
  (Unmarshal text).bind
    (fun s => if indentFails s.toJSON then none else some (MarshalIndent s.toJSON))

/-- Adjacent members are in key order: the later key is not less than the
earlier one. -/
def InKeyOrder (l : List (String × JSON)) : Prop :=
  List.Chain' (fun x y : String × JSON => keyLess y.1.data x.1.data = false) l

mutual
/-- The keys of the flag mapping and of the child-command mapping of the
record are pairwise distinct, and so for every record below it. -/
def commandJSON.nodupKeys : commandJSON → Bool
  | ⟨_, _, _, _, flags, subs⟩ =>
    decide ((flags.map Prod.fst).Nodup) && decide ((subs.map Prod.fst).Nodup) &&
      nodupKeysList subs
/-- Every record of the mapping has pairwise distinct keys throughout. -/
def nodupKeysList : List (String × commandJSON) → Bool
  | [] => true
  | (_, c) :: rest => commandJSON.nodupKeys c && nodupKeysList rest
end

/-! ## Measures and side conditions on command trees -/

/-- The first white-space-delimited token of a usage string, if any. -/
def firstToken (use : String) : Option String :=
  (Fields use).head?

mutual
/-- The number of commands of a tree, the root included. -/
def Command.size : Command → Nat
  | ⟨_, _, _, _, _, _, commands⟩ => 1 + sizeList commands
/-- The number of commands of a list of trees. -/
def sizeList : List Command → Nat
  | [] => 0
  | c :: rest => Command.size c + sizeList rest
end

mutual
/-- Every command below the root has a token in its usage string. -/
def Command.wellFormed : Command → Bool
  | ⟨_, _, _, _, _, _, commands⟩ => wellFormedList commands
/-- Every command of the list, and every command below it, has a token in
its usage string. -/
def wellFormedList : List Command → Bool
  | [] => true
  | c :: rest => (firstToken c.Use).isSome && Command.wellFormed c && wellFormedList rest
end

mutual
/-- The children of every command of the tree have pairwise distinct first
tokens. -/
def Command.distinctNames : Command → Bool
  | ⟨_, _, _, _, _, _, commands⟩ =>
    decide ((commands.map (fun c => firstToken c.Use)).Nodup) && distinctNamesList commands
/-- Every tree of the list has distinct sibling names throughout. -/
def distinctNamesList : List Command → Bool
  | [] => true
  | c :: rest => Command.distinctNames c && distinctNamesList rest
end

mutual
/-- The number of entries of the `commands` maps of a record, counted over
every nesting level. -/
def commandJSON.entryCount : commandJSON → Nat
  | ⟨_, _, _, _, _, subs⟩ => entriesCount subs
/-- The number of entries of a `commands` map, counted over every nesting
level. -/
def entriesCount : List (String × commandJSON) → Nat
  | [] => 0
  | (_, c) :: rest => 1 + commandJSON.entryCount c + entriesCount rest
end

mutual
/-- The description of the record and of every record below it is
well-formed UTF-8. -/
def commandJSON.validUTF8 : commandJSON → Bool
  | ⟨_, long, _, _, _, subs⟩ => long.isUTF8 && validUTF8List subs
/-- The descriptions of every record of the mapping are well-formed UTF-8. -/
def validUTF8List : List (String × commandJSON) → Bool
  | [] => true
  | (_, c) :: rest => commandJSON.validUTF8 c && validUTF8List rest
end

mutual
/-- The long description of every command of the tree, the root included, is
well-formed UTF-8. -/
def Command.descriptionsUTF8 : Command → Bool
  | ⟨_, long, _, _, _, _, commands⟩ => long.isUTF8 && descriptionsUTF8List commands
/-- The long description of every command of the list, and of every command
below it, is well-formed UTF-8. -/
def descriptionsUTF8List : List Command → Bool
  | [] => true
  | c :: rest => Command.descriptionsUTF8 c && descriptionsUTF8List rest
end

/-- The number of objects nested in each other in the value the export hands
to `json.MarshalIndent`. -/
def exportDepth (root : Command) (version : String) : Nat :=
  match buildSpec root version with
  | some s => JSON.depth s.toJSON
  | none => 0

/-- The member of an object under a key, if the object has one. -/
def JSON.member (key : String) : JSON → Option JSON
  | .str _ => none
  | .raw _ => none
  | .obj ms => GoMap.index key ms

/-- The path `p` splits into `stem` and its extension `ext`: the extension
starts at the last dot of the last slash-separated element of `p`, and is
empty when that element has no dot. -/
def IsExtension (p stem ext : List Char) : Prop :=
  p = stem ++ ext ∧
    ((ext = [] ∧ ∀ a b : List Char, p = a ++ '.' :: b → '/' ∈ b) ∨
     (∃ t : List Char, ext = '.' :: t ∧ '.' ∉ t ∧ '/' ∉ t))

/-- The front matter with the given title and description. -/
def frontMatter (title description : List Char) : List Char :=
  "---\ntitle: \"".data ++ (title ++ ("\"\ndescription: \"".data ++ (description ++
    "\"\ncategories: Libraries & Tools\ntype: Commands\ntags: qlik-cli\nproducts: Qlik Cloud, QSEoK\n---\n".data)))

/-- The usage string has a character that is not white space. -/
def hasNonSpace (use : String) : Bool :=
  use.data.any (fun c => !isSpace c)

mutual
/-- The usage string of every command below the root has a character that
is not white space; the usage string of the root itself is not looked at. -/
def Command.usagesNonBlank : Command → Bool
  | ⟨_, _, _, _, _, _, commands⟩ => usagesNonBlankList commands
/-- The usage string of every command of the list, and of every command
below it, has a character that is not white space. -/
def usagesNonBlankList : List Command → Bool
  | [] => true
  | c :: rest => hasNonSpace c.Use && Command.usagesNonBlank c && usagesNonBlankList rest
end

/-! ## Concrete command trees -/

/-- A leaf command with the given usage string. -/
def leaf (use : String) : Command :=
  ⟨use, "", "", [], [], [], []⟩

/-- The command `add <name>`. -/
def exAdd : Command := leaf "add <name>"

/-- A parent with the children `add <name>` and `rm <name>`. -/
def exParent : Command :=
  ⟨"app", "", "", [], [], [], [exAdd, leaf "rm <name>"]⟩

/-- A root with two children whose usage strings start with the same token. -/
def exDup : Command :=
  ⟨"root", "", "", [], [], [], [leaf "get <id>", leaf "get --all"]⟩

/-- A root with a child that has one child of its own. -/
def exNested : Command :=
  ⟨"root", "", "", [], [], [], [⟨"app", "", "", [], [], [], [exAdd]⟩, leaf "version"]⟩

/-- The flag `--out` with the shorthand `o` and the default `.`. -/
def exOut : Flag :=
  ⟨"out", "o", "", ".", ""⟩

/-- The flag `--verbose` with a usage text only. -/
def exVerbose : Flag :=
  ⟨"verbose", "", "print more", "", ""⟩

/-- The root `root` with the one child `build`, which has the one flag
`--out`. -/
def exRoot : Command :=
  ⟨"root", "", "", [], [], [], [⟨"build", "", "", [], [], [exOut], []⟩]⟩

/-- The value of the `commands` member of the example. -/
def exCommandsJSON : JSON :=
  JSON.obj [("build", JSON.obj [("flags", JSON.obj [("out",
    JSON.obj [("alias", JSON.str "o"), ("default", JSON.str ".")])])])]

/-- The text of C8: the `commands` member of the example without white
space. -/
def exCompactText : String :=
  "\"commands\":\x7b\"build\":\x7b\"flags\":\x7b\"out\":\x7b\"alias\":\"o\",\"default\":\".\"\x7d\x7d\x7d\x7d"

/-- The `commands` member of the example as the export writes it, indented
with two spaces a level. -/
def exIndentedText : String :=
  "\"commands\": \x7b\n    \"build\": \x7b\n      \"flags\": \x7b\n        \"out\": \x7b\n          \"alias\": \"o\",\n          \"default\": \".\"\n        \x7d\n      \x7d\n    \x7d\n  \x7d"

/-- The file the export writes for the example and the version `v1.0.0`. -/
def exSpecText : String :=
  "\x7b\n  \"name\": \"root\",\n  \"info\": \x7b\n    \"title\": \"Specification for corectl\",\n    \"version\": \"1.0.0\",\n    \"license\": \"MIT\"\n  \x7d,\n  \"clispec\": \"0.1.0\",\n  \"commands\": \x7b\n    \"build\": \x7b\n      \"flags\": \x7b\n        \"out\": \x7b\n          \"alias\": \"o\",\n          \"default\": \".\"\n        \x7d\n      \x7d\n    \x7d\n  \x7d\n\x7d"

/-- Three siblings, the first and the last with the first token `get`. -/
def exSiblings : List Command :=
  [⟨"get <id>", "first", "", [], [], [], []⟩, leaf "put <id>",
   ⟨"get --all", "last", "", [], [], [], []⟩]

/-- A root with an empty usage string, aliases and a deprecation message. -/
def exBareRoot : Command :=
  ⟨"", "the tool", "use tool2", ["t", "tl"], [("x-qlik-stability", "stable")], [exOut],
   [exAdd]⟩

/-- A root whose long description ends in the byte `0xE9`, the letter `é` in
Latin-1, which is not UTF-8. -/
def exLatin1Root : Command :=
  ⟨"root", [GoUnit.rune 'c', GoUnit.rune 'a', GoUnit.rune 'f', GoUnit.byte 0xE9], "", [], [],
   [], []⟩

/-- The file the export writes for `exLatin1Root` and the version `v1.0.0`:
the byte is written as the six characters of the escape of `U+FFFD`. -/
def exLatin1Text : String :=
  "\x7b\n  \"name\": \"root\",\n  \"info\": \x7b\n    \"title\": \"Specification for corectl\",\n    \"description\": \"caf\\ufffd\",\n    \"version\": \"1.0.0\",\n    \"license\": \"MIT\"\n  \x7d,\n  \"clispec\": \"0.1.0\"\n\x7d"

/-- The text of decoding `exLatin1Text` and encoding it again: the character
`U+FFFD` itself stands in the description. -/
def exLatin1Reencoded : String :=
  "\x7b\n  \"name\": \"root\",\n  \"info\": \x7b\n    \"title\": \"Specification for corectl\",\n    \"description\": \"caf\uFFFD\",\n    \"version\": \"1.0.0\",\n    \"license\": \"MIT\"\n  \x7d,\n  \"clispec\": \"0.1.0\"\n\x7d"

/-! ## Lemmas on Go maps -/

theorem GoMap.index_assign {α : Type} (k k' : String) (v : α) (m : GoMap α) :
    GoMap.index k' (GoMap.assign k v m) = if k' = k then some v else GoMap.index k' m := by
  induction m with
  | nil =>
    by_cases h : k' = k
    · simp [GoMap.assign, GoMap.index, h]
    · have h' : ¬ k = k' := fun e => h e.symm
      simp [GoMap.assign, GoMap.index, h, h']
  | cons e rest ih =>
    obtain ⟨k0, v0⟩ := e
    by_cases h0 : k0 = k
    · subst h0
      by_cases h : k' = k0
      · simp [GoMap.assign, GoMap.index, h]
      · have h' : ¬ k0 = k' := fun e => h e.symm
        simp [GoMap.assign, GoMap.index, h, h']
    · by_cases h1 : k0 = k'
      · subst h1
        simp [GoMap.assign, GoMap.index, h0]
      · simp [GoMap.assign, GoMap.index, h0, h1, ih]

theorem GoMap.assign_of_not_mem {α : Type} (k : String) (v : α) (m : GoMap α)
    (h : k ∉ GoMap.keys m) : GoMap.assign k v m = m ++ [(k, v)] := by
  induction m with
  | nil => rfl
  | cons e rest ih =>
    obtain ⟨k0, v0⟩ := e
    simp only [GoMap.keys, List.map_cons, List.mem_cons, not_or] at h
    have h0 : ¬ k0 = k := fun e => h.1 e.symm
    simp only [GoMap.assign, h0, if_false, List.cons_append]
    rw [ih h.2]

theorem GoMap.index_eq_none {α : Type} (k : String) (m : GoMap α)
    (h : k ∉ GoMap.keys m) : GoMap.index k m = none := by
  induction m with
  | nil => rfl
  | cons e rest ih =>
    obtain ⟨k0, v0⟩ := e
    simp only [GoMap.keys, List.map_cons, List.mem_cons, not_or] at h
    have h0 : ¬ k0 = k := fun e => h.1 e.symm
    simp only [GoMap.index, h0, if_false]
    exact ih h.2

theorem GoMap.index_append_single {α : Type} (k : String) (v : α) (m : GoMap α)
    (h : k ∉ GoMap.keys m) : GoMap.index k (m ++ [(k, v)]) = some v := by
  rw [← GoMap.assign_of_not_mem k v m h, GoMap.index_assign]
  simp

theorem GoMap.keys_assign_subset {α : Type} (k k' : String) (v : α) (m : GoMap α)
    (h : k' ∈ GoMap.keys (GoMap.assign k v m)) : k' = k ∨ k' ∈ GoMap.keys m := by
  induction m with
  | nil =>
    simp [GoMap.assign, GoMap.keys] at h
    exact Or.inl h
  | cons e rest ih =>
    obtain ⟨k0, v0⟩ := e
    by_cases h0 : k0 = k
    · simp [GoMap.assign, GoMap.keys, h0] at h
      rcases h with h | h
      · exact Or.inl h
      · exact Or.inr (by simp [GoMap.keys]; right; simpa [GoMap.keys] using h)
    · simp only [GoMap.assign, h0, if_false, GoMap.keys, List.map_cons, List.mem_cons] at h
      rcases h with h | h
      · exact Or.inr (by simp [GoMap.keys, h])
      · rcases ih h with h | h
        · exact Or.inl h
        · exact Or.inr (by simp only [GoMap.keys, List.map_cons, List.mem_cons]; right; exact h)

/-! ## Lemmas on the walker -/

theorem returnCmdspec_eq (c : Command) :
    returnCmdspec c = (returnCommands c.Commands).map (fun subs =>
      { Alias := returnAlias c.Aliases, Long := c.Long, Deprecated := c.Deprecated,
        SubCommands := subs, Flags := returnFlags c.LocalFlags,
        Stability := returnStability c.Annotations }) := by
  obtain ⟨use, long, dep, al, ann, fl, cmds⟩ := c
  simp only [returnCmdspec, returnCommands]
  cases returnCommandsLoop cmds [] <;> rfl

theorem returnCommandsLoop_nil (acc : GoMap commandJSON) :
    returnCommandsLoop [] acc = some acc := by
  simp [returnCommandsLoop]

theorem returnCommandsLoop_cons (c : Command) (rest : List Command) (acc : GoMap commandJSON) :
    returnCommandsLoop (c :: rest) acc =
      (firstToken c.Use).bind (fun key =>
        (returnCmdspec c).bind (fun r => returnCommandsLoop rest (GoMap.assign key r acc))) := by
  rw [returnCommandsLoop]
  unfold firstToken
  cases hF : Fields c.Use with
  | nil => simp
  | cons key toks =>
    cases hr : returnCmdspec c <;> simp

mutual
theorem returnCmdspec_isSome : ∀ c : Command, (returnCmdspec c).isSome = c.wellFormed
  | ⟨use, long, dep, al, ann, fl, cmds⟩ => by
    have h := returnCommandsLoop_isSome cmds []
    rw [returnCmdspec_eq]
    simp only [returnCommands, Option.isSome_map', Command.wellFormed]
    exact h
theorem returnCommandsLoop_isSome : ∀ (cs : List Command) (acc : GoMap commandJSON),
    (returnCommandsLoop cs acc).isSome = wellFormedList cs
  | [], acc => by simp [returnCommandsLoop, wellFormedList]
  | c :: rest, acc => by
    rw [returnCommandsLoop_cons, wellFormedList]
    have h1 := returnCmdspec_isSome c
    cases hk : firstToken c.Use with
    | none => simp
    | some key =>
      cases hr : returnCmdspec c with
      | none =>
        rw [hr] at h1
        simp at h1
        simp [← h1]
      | some r =>
        have h2 := returnCommandsLoop_isSome rest (GoMap.assign key r acc)
        rw [hr] at h1
        simp at h1
        simp [← h1, h2]
end

/-- Each command the loop visits has a first token and a record. -/
theorem returnCommandsLoop_some_mem (cs : List Command) :
    ∀ (acc m : GoMap commandJSON), returnCommandsLoop cs acc = some m →
      ∀ c ∈ cs, ∃ key r, firstToken c.Use = some key ∧ returnCmdspec c = some r := by
  induction cs with
  | nil => intro acc m _ c hc; simp at hc
  | cons x rest ih =>
    intro acc m h c hc
    rw [returnCommandsLoop_cons] at h
    cases hk : firstToken x.Use with
    | none => simp [hk] at h
    | some key =>
      cases hr : returnCmdspec x with
      | none => simp [hk, hr] at h
      | some r =>
        simp only [hk, hr, Option.bind_some] at h
        rcases List.mem_cons.1 hc with e | hmem
        · subst e
          exact ⟨key, r, hk, hr⟩
        · exact ih _ _ h c hmem

/-- A key none of the visited commands has keeps the entry it had. -/
theorem returnCommandsLoop_index_other (k : String) (cs : List Command) :
    ∀ (acc m : GoMap commandJSON), returnCommandsLoop cs acc = some m →
      (∀ c ∈ cs, firstToken c.Use ≠ some k) → GoMap.index k m = GoMap.index k acc := by
  induction cs with
  | nil =>
    intro acc m h _
    rw [returnCommandsLoop_nil] at h
    cases h
    rfl
  | cons x rest ih =>
    intro acc m h hne
    rw [returnCommandsLoop_cons] at h
    cases hk : firstToken x.Use with
    | none => simp [hk] at h
    | some key =>
      cases hr : returnCmdspec x with
      | none => simp [hk, hr] at h
      | some r =>
        simp only [hk, hr, Option.bind_some] at h
        have hx : firstToken x.Use ≠ some k := hne x (List.mem_cons_self _ _)
        have hkk : ¬ k = key := by
          intro e
          apply hx
          rw [hk, e]
        rw [ih _ _ h (fun c hc => hne c (List.mem_cons_of_mem _ hc)), GoMap.index_assign]
        simp [hkk]

/-- The entry under the first token of a command whose token no other visited
command has is the record of that command. -/
theorem returnCommandsLoop_index_child (k : String) (child : Command) (cs : List Command) :
    ∀ (acc m : GoMap commandJSON), returnCommandsLoop cs acc = some m →
      child ∈ cs → firstToken child.Use = some k →
      (∀ s ∈ cs, s ≠ child → firstToken s.Use ≠ some k) →
      GoMap.index k m = returnCmdspec child := by
  induction cs with
  | nil => intro acc m _ hc; simp at hc
  | cons x rest ih =>
    intro acc m h hc hk hne
    have hcons := h
    rw [returnCommandsLoop_cons] at h
    cases hkx : firstToken x.Use with
    | none => simp [hkx] at h
    | some key =>
      cases hr : returnCmdspec x with
      | none => simp [hkx, hr] at h
      | some r =>
        simp only [hkx, hr, Option.bind_some] at h
        by_cases hin : child ∈ rest
        · exact ih _ _ h hin hk (fun s hs => hne s (List.mem_cons_of_mem _ hs))
        · have hxc : child = x := by
            rcases List.mem_cons.1 hc with e | e
            · exact e
            · exact absurd e hin
          subst hxc
          have hrest : ∀ c ∈ rest, firstToken c.Use ≠ some k := by
            intro c hcr
            apply hne c (List.mem_cons_of_mem _ hcr)
            intro e
            apply hin
            rw [← e]
            exact hcr
          rw [returnCommandsLoop_index_other k rest _ _ h hrest, GoMap.index_assign, hr]
          have hkey : key = k := by
            rw [hk] at hkx
            exact (Option.some.inj hkx).symm
          simp [hkey]

theorem entriesCount_append (a b : List (String × commandJSON)) :
    entriesCount (a ++ b) = entriesCount a + entriesCount b := by
  induction a with
  | nil => simp [entriesCount]
  | cons e rest ih =>
    obtain ⟨k, c⟩ := e
    show entriesCount ((k, c) :: (rest ++ b)) = entriesCount ((k, c) :: rest) + entriesCount b
    rw [entriesCount, entriesCount, ih]
    omega

theorem GoMap.keys_append {α : Type} (a b : GoMap α) :
    GoMap.keys (a ++ b) = GoMap.keys a ++ GoMap.keys b := by
  simp [GoMap.keys]

mutual
theorem entryCount_returnCmdspec : ∀ (c : Command) (r : commandJSON),
    c.distinctNames = true → returnCmdspec c = some r → r.entryCount + 1 = c.size
  | ⟨use, long, dep, al, ann, fl, cmds⟩, r => by
    intro hd hr
    rw [returnCmdspec_eq] at hr
    simp only [Command.distinctNames, Bool.and_eq_true, decide_eq_true_eq] at hd
    cases hm : returnCommands cmds with
    | none => simp [hm] at hr
    | some m =>
      simp only [hm, Option.map_some', Option.some.injEq] at hr
      have h := entriesCount_loop cmds [] m hd.2 hd.1 (by intro c _ k _; simp [GoMap.keys]) hm
      subst hr
      simp only [commandJSON.entryCount, Command.size, h, entriesCount]
      omega
theorem entriesCount_loop : ∀ (cs : List Command) (acc m : GoMap commandJSON),
    distinctNamesList cs = true → (cs.map (fun c => firstToken c.Use)).Nodup →
    (∀ c ∈ cs, ∀ k, firstToken c.Use = some k → k ∉ GoMap.keys acc) →
    returnCommandsLoop cs acc = some m → entriesCount m = entriesCount acc + sizeList cs
  | [], acc, m => by
    intro _ _ _ h
    rw [returnCommandsLoop_nil] at h
    cases h
    simp [sizeList]
  | x :: rest, acc, m => by
    intro hd hnd hfresh h
    rw [returnCommandsLoop_cons] at h
    simp only [distinctNamesList, Bool.and_eq_true] at hd
    simp only [List.map_cons, List.nodup_cons] at hnd
    cases hk : firstToken x.Use with
    | none => simp [hk] at h
    | some key =>
      cases hr : returnCmdspec x with
      | none => simp [hk, hr] at h
      | some r =>
        simp only [hk, hr, Option.bind_some] at h
        replace h : returnCommandsLoop rest (GoMap.assign key r acc) = some m := h
        have hkey : key ∉ GoMap.keys acc := hfresh x (List.mem_cons_self _ _) key hk
        rw [GoMap.assign_of_not_mem key r acc hkey] at h
        have hx := entryCount_returnCmdspec x r hd.1 hr
        have hfresh2 : ∀ c ∈ rest, ∀ k, firstToken c.Use = some k →
            k ∉ GoMap.keys (acc ++ [(key, r)]) := by
          intro c hc k hck hmem
          rw [GoMap.keys_append] at hmem
          rcases List.mem_append.1 hmem with hm | hm
          · exact hfresh c (List.mem_cons_of_mem _ hc) k hck hm
          · simp only [GoMap.keys, List.map_cons, List.map_nil, List.mem_singleton] at hm
            apply hnd.1
            rw [hk, ← hm, ← hck]
            exact List.mem_map_of_mem (fun c => firstToken c.Use) hc
        have hrest := entriesCount_loop rest (acc ++ [(key, r)]) m hd.2 hnd.2 hfresh2 h
        rw [hrest, entriesCount_append]
        simp only [entriesCount, sizeList]
        omega
end

/-- Every token `strings.Fields` returns has at least one character. -/
theorem fieldsLoop_ne_nil (s : List Char) :
    ∀ cur : List Char, ∀ t ∈ fieldsLoop cur s, t ≠ [] := by
  induction s with
  | nil =>
    intro cur t ht
    cases cur with
    | nil => simp [fieldsLoop] at ht
    | cons a as =>
      simp [fieldsLoop] at ht
      subst ht
      simp
  | cons c cs ih =>
    intro cur t ht
    rw [fieldsLoop] at ht
    by_cases hsp : isSpace c = true
    · cases cur with
      | nil =>
        simp only [hsp, if_true, List.isEmpty_nil] at ht
        exact ih [] t ht
      | cons a as =>
        simp only [hsp, if_true, List.isEmpty_cons, List.mem_cons] at ht
        simp only [Bool.false_eq_true, if_false, List.mem_cons] at ht
        rcases ht with e | ht
        · subst e
          simp
        · exact ih [] t ht
    · simp only [hsp, if_false] at ht
      exact ih _ t ht

theorem firstToken_ne_empty (use key : String) (h : firstToken use = some key) : key ≠ "" := by
  unfold firstToken Fields at h
  have hmem : key ∈ (fieldsLoop [] use.data).map String.mk := List.mem_of_mem_head? h
  obtain ⟨t, ht, e⟩ := List.mem_map.1 hmem
  intro hk
  apply fieldsLoop_ne_nil use.data [] t ht
  rw [hk] at e
  have := congrArg String.data e
  simpa using this

theorem firstToken_empty : firstToken "" = none := by
  decide

/-- Every key of the map the loop returns was in the map it started from or
is the first token of a visited command. -/
theorem returnCommandsLoop_keys (cs : List Command) :
    ∀ (acc m : GoMap commandJSON), returnCommandsLoop cs acc = some m →
      ∀ k ∈ GoMap.keys m, k ∈ GoMap.keys acc ∨ ∃ c ∈ cs, firstToken c.Use = some k := by
  induction cs with
  | nil =>
    intro acc m h k hk
    rw [returnCommandsLoop_nil] at h
    cases h
    exact Or.inl hk
  | cons x rest ih =>
    intro acc m h k hk
    rw [returnCommandsLoop_cons] at h
    cases hkx : firstToken x.Use with
    | none => simp [hkx] at h
    | some key =>
      cases hr : returnCmdspec x with
      | none => simp [hkx, hr] at h
      | some r =>
        simp only [hkx, hr, Option.bind_some] at h
        rcases ih _ _ h k hk with h1 | ⟨c, hc, hck⟩
        · rcases GoMap.keys_assign_subset key k r acc h1 with e | h2
          · exact Or.inr ⟨x, List.mem_cons_self _ _, by rw [hkx, e]⟩
          · exact Or.inl h2
        · exact Or.inr ⟨c, List.mem_cons_of_mem _ hc, hck⟩

theorem buildSpec_eq (root : Command) (version : String) :
    buildSpec root version = (returnCommands root.Commands).map (fun subs =>
      { Clispec := "0.1.0", Name := root.Use,
        Info := { Title := "Specification for corectl", Description := root.Long,
                  Version := TrimPrefix version "v", License := "MIT" },
        SubCommands := subs, Flags := returnFlags root.LocalFlags,
        Stability := returnStability root.Annotations }) := by
  unfold buildSpec
  cases returnCommands root.Commands <;> rfl

theorem returnCommands_isSome (root : Command) :
    (returnCommands root.Commands).isSome = root.wellFormed := by
  obtain ⟨use, long, dep, al, ann, fl, cmds⟩ := root
  simp only [returnCommands, Command.wellFormed]
  exact returnCommandsLoop_isSome cmds []

/-! ## Lemmas on the string helpers -/

theorem replaceLoop_single (o n : Char) (s : List Char) :
    replaceLoop [o] [n] 0 s = s.map (fun c => if c = o then n else c) := by
  induction s with
  | nil => simp [replaceLoop]
  | cons c cs ih =>
    rw [replaceLoop]
    by_cases h : c = o
    · simp [hasPrefix, h, ih]
    · simp [hasPrefix, h, ih]

theorem ReplaceAll_single (s : String) (o n : Char) :
    (ReplaceAll s ⟨[o]⟩ ⟨[n]⟩).data = s.data.map (fun c => if c = o then n else c) := by
  simp [ReplaceAll, replaceLoop_single]

theorem TrimSuffix_append (stem ext : List Char) :
    TrimSuffix ⟨stem ++ ext⟩ ⟨ext⟩ = ⟨stem⟩ := by
  simp [TrimSuffix, hasSuffix]

/-- The loop of `path.Ext` returns nothing when a slash comes before any dot,
and otherwise the part from the first dot it meets, put back in order. -/
theorem extLoop_spec (r : List Char) :
    ∀ acc : List Char,
      (extLoop acc r = [] ∧ ∀ a b : List Char, r = a ++ '.' :: b → '/' ∈ a) ∨
      (∃ r1 r2 : List Char, r = r1 ++ '.' :: r2 ∧ '.' ∉ r1 ∧ '/' ∉ r1 ∧
        extLoop acc r = '.' :: (r1.reverse ++ acc)) := by
  induction r with
  | nil =>
    intro acc
    left
    refine ⟨rfl, ?_⟩
    intro a b h
    simp at h
  | cons c cs ih =>
    intro acc
    rw [extLoop]
    by_cases hs : c = '/'
    · left
      refine ⟨by simp [hs], ?_⟩
      intro a b h
      cases a with
      | nil =>
        simp only [List.nil_append, List.cons.injEq] at h
        rw [hs] at h
        exact absurd h.1 (by decide)
      | cons a0 as =>
        simp only [List.cons_append, List.cons.injEq] at h
        rw [← h.1, hs]
        simp
    · by_cases hd : c = '.'
      · right
        refine ⟨[], cs, by simp [hd], by simp, by simp, by simp [hs, hd]⟩
      · simp only [hs, hd, if_false]
        rcases ih (c :: acc) with ⟨he, hall⟩ | ⟨r1, r2, hr, hdot, hsl, he⟩
        · left
          refine ⟨he, ?_⟩
          intro a b h
          cases a with
          | nil =>
            simp only [List.nil_append, List.cons.injEq] at h
            exact absurd h.1 hd
          | cons a0 as =>
            simp only [List.cons_append, List.cons.injEq] at h
            exact List.mem_cons_of_mem _ (hall as b h.2)
        · right
          refine ⟨c :: r1, r2, by simp [hr], ?_, ?_, ?_⟩
          · simp only [List.mem_cons, not_or]
            exact ⟨fun e => hd e.symm, hdot⟩
          · simp only [List.mem_cons, not_or]
            exact ⟨fun e => hs e.symm, hsl⟩
          · rw [he]
            simp

/-- The result of `path.Ext` is the extension of the path, and what is left of
the path before it is the stem. -/
theorem Ext_isExtension (p : String) :
    ∃ stem : List Char, IsExtension p.data stem (Ext p).data := by
  rcases extLoop_spec p.data.reverse [] with ⟨he, hall⟩ | ⟨r1, r2, hr, hdot, hsl, he⟩
  · refine ⟨p.data, ?_, ?_⟩
    · simp [Ext, he]
    · left
      refine ⟨by simp [Ext, he], ?_⟩
      intro a b h
      have h2 : p.data.reverse = b.reverse ++ '.' :: a.reverse := by
        rw [h]
        simp
      have := hall _ _ h2
      simpa using this
  · have hp : p.data = r2.reverse ++ '.' :: r1.reverse := by
      have := congrArg List.reverse hr
      simpa using this
    have hE : (Ext p).data = '.' :: r1.reverse := by
      simp [Ext, he]
    refine ⟨r2.reverse, ?_, ?_⟩
    · rw [hE]
      exact hp
    · right
      exact ⟨r1.reverse, by simp [Ext, he], by simpa using hdot, by simpa using hsl⟩

theorem TrimSuffix_Ext (p : String) (stem : List Char)
    (h : IsExtension p.data stem (Ext p).data) :
    TrimSuffix p (Ext p) = ⟨stem⟩ := by
  have hp : p = ⟨stem ++ (Ext p).data⟩ := String.ext h.1
  have := TrimSuffix_append stem (Ext p).data
  rw [← hp] at this
  exact this

theorem Sprintf_fmTemplate (title description : String) :
    (Sprintf fmTemplate [title, description]).data =
      frontMatter title.data description.data := by
  rfl

theorem dropWhile_append_of_exists (P : Char → Bool) (a b : List Char)
    (h : ∃ x ∈ a, P x = false) : (a ++ b).dropWhile P = a.dropWhile P ++ b := by
  induction a with
  | nil =>
    obtain ⟨x, hx, _⟩ := h
    simp at hx
  | cons c cs ih =>
    by_cases hc : P c = true
    · have h' : ∃ x ∈ cs, P x = false := by
        obtain ⟨x, hx, hPx⟩ := h
        rcases List.mem_cons.1 hx with e | hmem
        · subst e
          rw [hc] at hPx
          cases hPx
        · exact ⟨x, hmem, hPx⟩
      simp only [List.cons_append, List.dropWhile_cons, hc, if_true]
      exact ih h'
    · simp [List.dropWhile_cons, hc]

theorem takeWhile_append_cons_of_not (P : Char → Bool) (a b : List Char) (x : Char)
    (hx : P x = false) : (a ++ x :: b).takeWhile P = a.takeWhile P := by
  induction a with
  | nil => simp [List.takeWhile_cons, hx]
  | cons c cs ih =>
    by_cases hc : P c = true
    · simp [List.takeWhile_cons, hc, ih]
    · simp [List.takeWhile_cons, hc]

/-- A directory in front of a file name does not change `filepath.Base`. -/
theorem Base_dir (dir filename : String) (h : ∃ c ∈ filename.data, c ≠ '/') :
    Base (dir ++ "/" ++ filename) = Base filename := by
  have hdata : (dir ++ "/" ++ filename).data = dir.data ++ '/' :: filename.data := by
    rw [String.data_append, String.data_append]
    have hs : ("/" : String).data = ['/'] := rfl
    rw [hs]
    simp
  obtain ⟨c, hc, hne⟩ := h
  have hne1 : filename.data ≠ [] := List.ne_nil_of_mem hc
  have hex : ∃ x ∈ filename.data.reverse, (fun c => c == '/') x = false :=
    ⟨c, List.mem_reverse.2 hc, by simpa using hne⟩
  unfold Base
  rw [hdata]
  have e1 : (dir.data ++ '/' :: filename.data).isEmpty = false := by
    cases dir.data <;> rfl
  have e2 : filename.data.isEmpty = false := by
    cases hf : filename.data with
    | nil => exact absurd hf hne1
    | cons a as => rfl
  simp only [e1, e2, Bool.false_eq_true, if_false]
  have hrev : (dir.data ++ '/' :: filename.data).reverse =
      filename.data.reverse ++ '/' :: dir.data.reverse := by
    simp
  rw [hrev, dropWhile_append_of_exists _ _ _ hex,
    takeWhile_append_cons_of_not _ _ _ _ (by decide)]

/-- For a path with a character other than the slash, `filepath.Base` is its
last slash-separated element: the path is a directory part that is empty or
ends in a slash, then the element, which is not empty and has no slash, then
trailing slashes only. -/
theorem Base_last_element (p : String) (h : ∃ c ∈ p.data, c ≠ '/') :
    ∃ dir slashes : List Char, p.data = dir ++ (Base p).data ++ slashes ∧
      (∀ c ∈ slashes, c = '/') ∧ '/' ∉ (Base p).data ∧ (Base p).data ≠ [] ∧
      (dir = [] ∨ dir.getLast? = some '/') := by
  obtain ⟨c, hc, hne⟩ := h
  have hne1 : p.data ≠ [] := List.ne_nil_of_mem hc
  have e2 : p.data.isEmpty = false := by
    cases hf : p.data with
    | nil => exact absurd hf hne1
    | cons a as => rfl
  have hS : p.data.reverse.dropWhile (fun c => c == '/') ≠ [] := by
    intro hnil
    have := List.dropWhile_eq_nil_iff.1 hnil c (List.mem_reverse.2 hc)
    simp at this
    exact hne this
  have hhead := List.head_dropWhile_not (fun c => c == '/') p.data.reverse hS
  have hL : (p.data.reverse.dropWhile (fun c => c == '/')).takeWhile (fun c => c != '/')
      ≠ [] := by
    cases hS' : p.data.reverse.dropWhile (fun c => c == '/') with
    | nil => exact absurd hS' hS
    | cons x xs =>
      simp only [hS', List.head_cons] at hhead
      have hx : (x != '/') = true := by simpa using hhead
      simp [List.takeWhile_cons, hx]
  have hBase : (Base p).data =
      ((p.data.reverse.dropWhile (fun c => c == '/')).takeWhile (fun c => c != '/')).reverse := by
    unfold Base
    simp only [e2, Bool.false_eq_true, if_false]
    cases hL' : ((p.data.reverse.dropWhile (fun c => c == '/')).takeWhile
        (fun c => c != '/')) with
    | nil => exact absurd hL' hL
    | cons x xs => simp
  refine ⟨((p.data.reverse.dropWhile (fun c => c == '/')).dropWhile (fun c => c != '/')).reverse,
    (p.data.reverse.takeWhile (fun c => c == '/')).reverse, ?_, ?_, ?_, ?_, ?_⟩
  · rw [hBase, ← List.reverse_append, ← List.reverse_append,
      List.takeWhile_append_dropWhile, List.takeWhile_append_dropWhile, List.reverse_reverse]
  · intro x hx
    have := List.mem_takeWhile_imp (List.mem_reverse.1 hx)
    simpa using this
  · rw [hBase]
    intro hmem
    have := List.mem_takeWhile_imp (List.mem_reverse.1 hmem)
    simp at this
  · rw [hBase]
    simpa using hL
  · cases hR : (p.data.reverse.dropWhile (fun c => c == '/')).dropWhile (fun c => c != '/') with
    | nil => left; rfl
    | cons x xs =>
      right
      have hne2 : (p.data.reverse.dropWhile (fun c => c == '/')).dropWhile
          (fun c => c != '/') ≠ [] := by
        rw [hR]
        simp
      have hh := List.head_dropWhile_not (fun c => c != '/') _ hne2
      simp only [hR, List.head_cons] at hh
      have hx : x = '/' := by simpa using hh
      rw [List.getLast?_reverse, hx]
      rfl

/-! ## The claims -/

/-- C1: for a command all of whose descendants have a token in their usage
string (the condition under which `returnCmdspec` returns a record), and a
direct child whose usage string has a first token `key` that no sibling has,
the record of the parent holds, under `key` in its child-command mapping,
exactly the record `returnCmdspec` returns for the child. -/
theorem returnCmdspec_child_under_first_token (parent child : Command) (key : String)
    (hchild : child ∈ parent.Commands)
    (hkey : (Fields child.Use).head? = some key)
    (hdistinct : ∀ s ∈ parent.Commands, s ≠ child → (Fields s.Use).head? ≠ some key)
    (hwf : parent.wellFormed = true) :
    ∃ record r, returnCmdspec parent = some record ∧ returnCmdspec child = some r ∧
      GoMap.index key record.SubCommands = some r := by
  have hsome : (returnCommands parent.Commands).isSome = true := by
    rw [returnCommands_isSome, hwf]
  obtain ⟨m, hm⟩ := Option.isSome_iff_exists.1 hsome
  have hidx := returnCommandsLoop_index_child key child parent.Commands [] m hm hchild hkey
    hdistinct
  obtain ⟨k', r, _, hr⟩ := returnCommandsLoop_some_mem parent.Commands [] m hm child hchild
  have hp := returnCmdspec_eq parent
  rw [hm, Option.map_some'] at hp
  exact ⟨_, r, hp, hr, by simpa [hr] using hidx⟩

/-- C1 at the parent `app` with the children `add <name>` and `rm <name>`:
the record of `add <name>` is under the key `add`. -/
theorem returnCmdspec_child_under_first_token_witness :
    ∃ record r, returnCmdspec exParent = some record ∧ returnCmdspec exAdd = some r ∧
      GoMap.index "add" record.SubCommands = some r :=
  returnCmdspec_child_under_first_token exParent exAdd "add"
    (by simp [exParent]) (by decide)
    (by
      intro s hs hne
      simp only [exParent, List.mem_cons, List.mem_singleton, List.not_mem_nil, or_false] at hs
      rcases hs with e | e
      · exact absurd e hne
      · subst e
        decide)
    (by decide)

/-- C2, as stated, fails: a root with the two children `get <id>` and
`get --all` is a tree of three commands, and its export has one entry in
its `commands` maps, not two. -/
theorem entry_count_counterexample :
    Command.size exDup = 3 ∧
      (buildSpec exDup "v1.0.0").map (fun s => entriesCount s.SubCommands) = some 1 := by
  constructor
  · decide
  · rfl

/-- C2, amended: for a command tree with N commands in which every command
below the root has a token in its usage string and the children of each
command have pairwise distinct first tokens, the export is built and the
number of entries of its `commands` maps, counted over every nesting level,
is N - 1. -/
theorem entry_count_of_distinct_names (root : Command) (version : String)
    (hwf : root.wellFormed = true) (hdist : root.distinctNames = true) :
    ∃ s, buildSpec root version = some s ∧ entriesCount s.SubCommands = root.size - 1 := by
  have hsome : (returnCmdspec root).isSome = true := by
    rw [returnCmdspec_isSome, hwf]
  obtain ⟨r, hr⟩ := Option.isSome_iff_exists.1 hsome
  have hcount := entryCount_returnCmdspec root r hdist hr
  rw [returnCmdspec_eq] at hr
  cases hm : returnCommands root.Commands with
  | none => simp [hm] at hr
  | some m =>
    rw [hm, Option.map_some', Option.some.injEq] at hr
    subst hr
    refine ⟨_, by rw [buildSpec_eq, hm, Option.map_some'], ?_⟩
    simp only [commandJSON.entryCount] at hcount
    show entriesCount m = root.size - 1
    omega

/-- C2, amended, at a root with the child `app`, its child `add <name>`, and
the child `version`: four commands, three entries. -/
theorem entry_count_of_distinct_names_witness :
    ∃ s, buildSpec exNested "v1.0.0" = some s ∧ entriesCount s.SubCommands = 4 - 1 :=
  entry_count_of_distinct_names exNested "v1.0.0" (by decide) (by decide)

/-- C3, as stated, fails: on a child whose usage string is empty
`returnCommands` returns no mapping at all; it aborts on the index `[0]`. -/
theorem returnCommands_empty_use_counterexample :
    returnCommands [leaf ""] = none ∧ returnCommands [exAdd, leaf "", leaf ""] = none := by
  constructor <;> rfl

/-- C3, amended: when a child command's usage string is empty,
`returnCommands` aborts on the first-token index and returns no mapping; and
whenever it does return a mapping, no record is stored under the empty-string
key. -/
theorem returnCommands_empty_use_aborts (commands : List Command) :
    (∀ c ∈ commands, c.Use = "" → returnCommands commands = none) ∧
    (∀ m, returnCommands commands = some m → "" ∉ GoMap.keys m) := by
  constructor
  · intro c hc hUse
    cases hm : returnCommands commands with
    | none => rfl
    | some m =>
      obtain ⟨key, r, hk, _⟩ := returnCommandsLoop_some_mem commands [] m hm c hc
      rw [hUse, firstToken_empty] at hk
      cases hk
  · intro m hm hmem
    rcases returnCommandsLoop_keys commands [] m hm "" hmem with h | ⟨c, _, hc⟩
    · simp [GoMap.keys] at h
    · exact firstToken_ne_empty c.Use "" hc rfl

/-- C3, amended, at the siblings `add <name>` and a command with an empty
usage string. -/
theorem returnCommands_empty_use_aborts_witness :
    returnCommands [exAdd, leaf ""] = none :=
  (returnCommands_empty_use_aborts [exAdd, leaf ""]).1 (leaf "") (by simp) rfl

/-- C4: `returnAlias` returns the empty string for an empty alias list and
the first element of a non-empty one, whatever follows it; the aliases
`ls`, `list` give `ls`; and the alias of the record of a command is
`returnAlias` of its alias list. -/
theorem returnAlias_first :
    returnAlias [] = "" ∧
    (∀ (a : String) (rest : List String), returnAlias (a :: rest) = a) ∧
    returnAlias ["ls", "list"] = "ls" ∧ returnAlias ["ls", "list"] ≠ "list" ∧
    (∀ (c : Command) (r : commandJSON), returnCmdspec c = some r →
      r.Alias = returnAlias c.Aliases) := by
  refine ⟨rfl, fun _ _ => rfl, rfl, by decide, ?_⟩
  intro c r hr
  rw [returnCmdspec_eq] at hr
  cases hm : returnCommands c.Commands with
  | none => simp [hm] at hr
  | some m =>
    rw [hm, Option.map_some', Option.some.injEq] at hr
    subst hr
    rfl

/-- C4 at a command with the aliases `ls`, `list`: the alias of its record
is `ls`. -/
theorem returnAlias_first_witness :
    (returnCmdspec ⟨"list", "", "", ["ls", "list"], [], [], []⟩).map (fun r => r.Alias)
      = some "ls" := by
  have h := returnAlias_first.2.2.2.2 ⟨"list", "", "", ["ls", "list"], [], [], []⟩ _ rfl
  exact congrArg some h

theorem TrimPrefix_v_append (rest : String) : TrimPrefix ("v" ++ rest) "v" = rest := by
  have h : ("v" ++ rest).data = 'v' :: rest.data := by
    rw [String.data_append]
    rfl
  unfold TrimPrefix
  rw [h]
  have hv : ("v" : String).data = ['v'] := rfl
  simp [hasPrefix, hv]

theorem TrimPrefix_v_of_head (s : String) (h : s.data.head? ≠ some 'v') :
    TrimPrefix s "v" = s := by
  unfold TrimPrefix
  have hv : ("v" : String).data = ['v'] := rfl
  rw [hv]
  cases hs : s.data with
  | nil => simp [hasPrefix]
  | cons c cs =>
    rw [hs] at h
    have hc : c ≠ 'v' := fun e => h (by simp [e])
    simp [hasPrefix, hc]

/-- C5: the export is built for every root whose descendants have a token in
their usage string, and its `info.version` is the version string given with
one leading `v` removed when it begins with `v`, and the version string
unchanged when it does not. -/
theorem info_version_trims_one_v (root : Command) (version : String)
    (hwf : root.wellFormed = true) :
    ∃ s, buildSpec root version = some s ∧
      (∀ rest : String, version = "v" ++ rest → s.Info.Version = rest) ∧
      (version.data.head? ≠ some 'v' → s.Info.Version = version) := by
  have hsome : (returnCommands root.Commands).isSome = true := by
    rw [returnCommands_isSome, hwf]
  obtain ⟨m, hm⟩ := Option.isSome_iff_exists.1 hsome
  refine ⟨_, by rw [buildSpec_eq, hm, Option.map_some'], ?_, ?_⟩
  · intro rest hrest
    show TrimPrefix version "v" = rest
    rw [hrest, TrimPrefix_v_append]
  · intro hhead
    exact TrimPrefix_v_of_head version hhead

/-- C5 at the versions `v2.0.1`, `vv1` and `2.0.1`. -/
theorem info_version_trims_one_v_witness :
    (∃ s, buildSpec exRoot "v2.0.1" = some s ∧ s.Info.Version = "2.0.1") ∧
    (∃ s, buildSpec exRoot "vv1" = some s ∧ s.Info.Version = "v1") ∧
    (∃ s, buildSpec exRoot "2.0.1" = some s ∧ s.Info.Version = "2.0.1") := by
  refine ⟨?_, ?_, ?_⟩
  · obtain ⟨s, hs, h1, _⟩ := info_version_trims_one_v exRoot "v2.0.1" (by decide)
    exact ⟨s, hs, h1 "2.0.1" (by decide)⟩
  · obtain ⟨s, hs, h1, _⟩ := info_version_trims_one_v exRoot "vv1" (by decide)
    exact ⟨s, hs, h1 "v1" (by decide)⟩
  · obtain ⟨s, hs, _, h2⟩ := info_version_trims_one_v exRoot "2.0.1" (by decide)
    exact ⟨s, hs, h2 (by decide)⟩

/-- With names not yet in the map and pairwise distinct, the visits of
`returnFlags` append one entry per flag. -/
theorem returnFlags_foldl (flags : List Flag) :
    ∀ acc : GoMap flagJSON, (flags.map Flag.Name).Nodup →
      (∀ f ∈ flags, f.Name ∉ GoMap.keys acc) →
      flags.foldl (fun m f => GoMap.assign f.Name (flagRecord f) m) acc =
        acc ++ flags.map (fun f => (f.Name, flagRecord f)) := by
  induction flags with
  | nil => intro acc _ _; simp
  | cons x rest ih =>
    intro acc hnd hfresh
    simp only [List.map_cons, List.nodup_cons] at hnd
    rw [List.foldl_cons, GoMap.assign_of_not_mem _ _ _ (hfresh x (List.mem_cons_self _ _))]
    rw [ih _ hnd.2]
    · simp
    · intro f hf hmem
      rw [GoMap.keys_append] at hmem
      rcases List.mem_append.1 hmem with h | h
      · exact hfresh f (List.mem_cons_of_mem _ hf) h
      · simp only [GoMap.keys, List.map_cons, List.map_nil, List.mem_singleton] at h
        apply hnd.1
        rw [← h]
        exact List.mem_map_of_mem Flag.Name hf

theorem returnFlags_eq_map (flags : List Flag) (hnames : (flags.map Flag.Name).Nodup) :
    returnFlags flags = flags.map (fun f => (f.Name, flagRecord f)) := by
  unfold returnFlags
  rw [returnFlags_foldl flags [] hnames (by intro f _; simp [GoMap.keys])]
  simp

theorem GoMap.index_of_mem_nodup {α : Type} (m : GoMap α) (k : String) (v : α)
    (hnd : (GoMap.keys m).Nodup) (hmem : (k, v) ∈ m) : GoMap.index k m = some v := by
  induction m with
  | nil => simp at hmem
  | cons e rest ih =>
    obtain ⟨k0, v0⟩ := e
    simp only [GoMap.keys, List.map_cons, List.nodup_cons] at hnd
    rcases List.mem_cons.1 hmem with h | h
    · cases h
      simp [GoMap.index]
    · have hk : k ∈ List.map Prod.fst rest := List.mem_map_of_mem Prod.fst h
      have hne : ¬ k0 = k := by
        intro e
        apply hnd.1
        rw [e]
        exact hk
      simp only [GoMap.index, hne, if_false]
      exact ih hnd.2 h

/-- C6: for local flags with pairwise distinct names, the keys of the mapping
`returnFlags` returns are exactly the names of the flags, one entry a flag,
and the entry under the name of a flag holds the shorthand, usage text,
default text and deprecation message of that flag, each copied unchanged. -/
theorem returnFlags_entries (flags : List Flag) (hnames : (flags.map Flag.Name).Nodup) :
    (∀ k, k ∈ GoMap.keys (returnFlags flags) ↔ ∃ f ∈ flags, f.Name = k) ∧
    (GoMap.keys (returnFlags flags)).Nodup ∧
    (returnFlags flags).length = flags.length ∧
    (∀ f ∈ flags, GoMap.index f.Name (returnFlags flags) =
      some ⟨f.Shorthand, f.Usage, f.DefValue, f.Deprecated⟩) := by
  have hkeys : GoMap.keys (returnFlags flags) = flags.map Flag.Name := by
    rw [returnFlags_eq_map flags hnames]
    simp [GoMap.keys]
  refine ⟨?_, ?_, ?_, ?_⟩
  · intro k
    rw [hkeys]
    simp
  · rw [hkeys]
    exact hnames
  · rw [returnFlags_eq_map flags hnames]
    simp
  · intro f hf
    apply GoMap.index_of_mem_nodup
    · rw [hkeys]
      exact hnames
    · rw [returnFlags_eq_map flags hnames]
      exact List.mem_map_of_mem (fun f => (f.Name, flagRecord f)) hf

/-- C6 at the flags `--out` and `--verbose`: the entry under `out` has the
shorthand `o` and the default `.`. -/
theorem returnFlags_entries_witness :
    GoMap.index "out" (returnFlags [exOut, exVerbose]) = some ⟨"o", "", ".", ""⟩ ∧
    (returnFlags [exOut, exVerbose]).length = 2 :=
  ⟨(returnFlags_entries [exOut, exVerbose] (by decide)).2.2.2 exOut (by simp),
   (returnFlags_entries [exOut, exVerbose] (by decide)).2.2.1⟩

theorem omitEmpty_eq (key value : String) :
    omitEmpty key value = if value = "" then [] else [(key, JSON.str value)] := by
  unfold omitEmpty
  by_cases h : value = ""
  · subst h
    rfl
  · have hd : value.data ≠ [] := by
      intro e
      apply h
      exact String.ext e
    cases hv : value.data with
    | nil => exact absurd hv hd
    | cons c cs => simp [h]

/-- C7: in the encoding of a flag record, each of the keys `alias`,
`description`, `default` and `deprecated` is a member exactly when the field
it stands for is a non-empty string, and then holds that string; there is no
other key; and a record whose four fields are empty is encoded as an object
without members, written as an opening and a closing brace. -/
theorem flagJSON_omits_empty_fields (f : flagJSON) :
    JSON.member "alias" f.toJSON =
      (if f.Shorthand = "" then none else some (JSON.str f.Shorthand)) ∧
    JSON.member "description" f.toJSON =
      (if f.Usage = "" then none else some (JSON.str f.Usage)) ∧
    JSON.member "default" f.toJSON =
      (if f.DefValue = "" then none else some (JSON.str f.DefValue)) ∧
    JSON.member "deprecated" f.toJSON =
      (if f.Deprecated = "" then none else some (JSON.str f.Deprecated)) ∧
    (∀ k ∈ GoMap.keys f.members, k ∈ ["alias", "description", "default", "deprecated"]) ∧
    flagJSON.toJSON ⟨"", "", "", ""⟩ = JSON.obj [] ∧
    MarshalIndent (flagJSON.toJSON ⟨"", "", "", ""⟩) = "\x7b\x7d" ∧
    Marshal (flagJSON.toJSON ⟨"", "", "", ""⟩) = "\x7b\x7d" := by
  obtain ⟨a, b, c, d⟩ := f
  refine ⟨?_, ?_, ?_, ?_, ?_, rfl, by decide, by decide⟩
  all_goals
    simp only [flagJSON.toJSON, flagJSON.members, JSON.member, omitEmpty_eq]
    by_cases ha : a = "" <;> by_cases hb : b = "" <;> by_cases hc : c = "" <;>
      by_cases hd : d = "" <;>
      simp [ha, hb, hc, hd, GoMap.index, GoMap.keys]

/-- C7 at the record of the flag `--out`: `alias` holds `o`, and there is no
`description`. -/
theorem flagJSON_omits_empty_fields_witness :
    JSON.member "alias" (flagRecord exOut).toJSON = some (JSON.str "o") ∧
    JSON.member "description" (flagRecord exOut).toJSON = none :=
  ⟨(flagJSON_omits_empty_fields (flagRecord exOut)).1,
   (flagJSON_omits_empty_fields (flagRecord exOut)).2.1⟩

/-- In the indented text of the members of an object, each member appears
as its key, a colon, a space and the indented text of its value. -/
theorem JSON.indentedMembers_infix (depth : Nat) (k : String) (v : JSON) :
    ∀ ms : List (String × JSON), (k, v) ∈ ms →
      (encodeString k ++ ':' :: ' ' :: JSON.indented depth v) <:+:
        JSON.indentedMembers depth ms := by
  intro ms
  induction ms with
  | nil => intro h; simp at h
  | cons e rest ih =>
    intro h
    obtain ⟨k0, v0⟩ := e
    cases rest with
    | nil =>
      rcases List.mem_cons.1 h with e | hmem
      · cases e
        rw [JSON.indentedMembers]
      · simp at hmem
    | cons e2 rest2 =>
      rw [JSON.indentedMembers]
      rcases List.mem_cons.1 h with e | hmem
      · cases e
        refine ⟨[], ',' :: (newline depth ++ JSON.indentedMembers depth (e2 :: rest2)), ?_⟩
        simp
      · obtain ⟨pre, post, hpp⟩ := ih hmem
        refine ⟨encodeString k0 ++ ':' :: ' ' :: (JSON.indented depth v0 ++
          ',' :: (newline depth ++ pre)), post, ?_⟩
        simp only [← hpp]
        simp

theorem JSON.indented_member_infix (depth : Nat) (k : String) (v : JSON)
    (ms : List (String × JSON)) (h : (k, v) ∈ ms) :
    (encodeString k ++ ':' :: ' ' :: JSON.indented (depth + 1) v) <:+:
      JSON.indented depth (JSON.obj ms) := by
  cases ms with
  | nil => simp at h
  | cons m rest =>
    obtain ⟨pre, post, hpp⟩ := JSON.indentedMembers_infix (depth + 1) k v (m :: rest) h
    rw [JSON.indented]
    refine ⟨'\x7b' :: (newline (depth + 1) ++ pre), post ++ newline depth ++ ['\x7d'], ?_⟩
    simp only [← hpp]
    simp

/-- In the compact text of the members of an object, each member appears as
its key, a colon and the compact text of its value. -/
theorem JSON.compactMembers_infix (k : String) (v : JSON) :
    ∀ ms : List (String × JSON), (k, v) ∈ ms →
      (encodeString k ++ ':' :: JSON.compact v) <:+: JSON.compactMembers ms := by
  intro ms
  induction ms with
  | nil => intro h; simp at h
  | cons e rest ih =>
    intro h
    obtain ⟨k0, v0⟩ := e
    cases rest with
    | nil =>
      rcases List.mem_cons.1 h with e | hmem
      · cases e
        rw [JSON.compactMembers]
      · simp at hmem
    | cons e2 rest2 =>
      rw [JSON.compactMembers]
      rcases List.mem_cons.1 h with e | hmem
      · cases e
        refine ⟨[], ',' :: JSON.compactMembers (e2 :: rest2), ?_⟩
        simp
      · obtain ⟨pre, post, hpp⟩ := ih hmem
        refine ⟨encodeString k0 ++ ':' :: (JSON.compact v0 ++ ',' :: pre), post, ?_⟩
        simp only [← hpp]
        simp

theorem JSON.compact_member_infix (k : String) (v : JSON)
    (ms : List (String × JSON)) (h : (k, v) ∈ ms) :
    (encodeString k ++ ':' :: JSON.compact v) <:+: JSON.compact (JSON.obj ms) := by
  obtain ⟨pre, post, hpp⟩ := JSON.compactMembers_infix k v ms h
  rw [JSON.compact]
  refine ⟨'\x7b' :: pre, post ++ ['\x7d'], ?_⟩
  simp only [← hpp]
  simp

set_option maxRecDepth 100000 in
/-- C8, as stated, fails: for the root `root` with the child `build` and its
flag `--out`, the text the export writes is indented, and the text of the
claim, which has no white space, does not occur in it. -/
theorem generateSpec_example_counterexample :
    generateSpec exRoot "v1.0.0" = some exSpecText ∧
      ¬ (exCompactText.data <:+: exSpecText.data) := by
  constructor
  · decide
  · decide

set_option maxRecDepth 100000 in
/-- C8, amended: for the root `root` with the child `build` and its flag
`--out` (shorthand `o`, default `.`), and every version string, the text the
export writes contains the `commands` member indented with two spaces a
level, and the compact encoding of the same envelope contains the text
`"commands":{"build":{"flags":{"out":{"alias":"o","default":"."}}}}`. -/
theorem generateSpec_example_contains (version : String) :
    ∃ s text, buildSpec exRoot version = some s ∧
      generateSpec exRoot version = some text ∧
      exIndentedText.data <:+: text.data ∧
      exCompactText.data <:+: (Marshal s.toJSON).data := by
  have hjson : ∀ s, buildSpec exRoot version = some s →
      ∃ a b c, s.toJSON = JSON.obj [a, b, c, ("commands", exCommandsJSON)] := by
    intro s hs
    have hs' : some s = buildSpec exRoot version := hs.symm
    cases hs'
    exact ⟨_, _, _, rfl⟩
  have hi : exIndentedText.data =
      encodeString "commands" ++ ':' :: ' ' :: JSON.indented 1 exCommandsJSON := by
    decide
  have hc : exCompactText.data =
      encodeString "commands" ++ ':' :: JSON.compact exCommandsJSON := by
    decide
  obtain ⟨a, b, c, hv⟩ := hjson _ rfl
  refine ⟨_, _, rfl, rfl, ?_, ?_⟩
  · show exIndentedText.data <:+: JSON.indented 0 _
    rw [hv, hi]
    exact JSON.indented_member_infix 0 "commands" exCommandsJSON _ (by simp)
  · show exCompactText.data <:+: JSON.compact _
    rw [hv, hc]
    exact JSON.compact_member_infix "commands" exCommandsJSON _ (by simp)

/-- C9: for every output filename, `filePrepender` returns the front-matter
template with one string as both the title and the description: the stem of
`filepath.Base` of the filename, that is the last path element without its
extension, with every underscore replaced by a space. For a filename with a
character other than the slash, `filepath.Base` is its last slash-separated
element and a directory in front of the filename does not change the
result. -/
theorem filePrepender_front_matter (filename : String) :
    (∃ stem ext : List Char, IsExtension (Base filename).data stem ext ∧
      (filePrepender filename).data =
        frontMatter (stem.map (fun c => if c = '_' then ' ' else c))
          (stem.map (fun c => if c = '_' then ' ' else c))) ∧
    ((∃ c ∈ filename.data, c ≠ '/') →
      (∃ dir slashes : List Char, filename.data = dir ++ (Base filename).data ++ slashes ∧
        (∀ c ∈ slashes, c = '/') ∧ '/' ∉ (Base filename).data ∧
        (Base filename).data ≠ [] ∧ (dir = [] ∨ dir.getLast? = some '/')) ∧
      ∀ dir : String, filePrepender (dir ++ "/" ++ filename) = filePrepender filename) := by
  constructor
  · obtain ⟨stem, hstem⟩ := Ext_isExtension (Base filename)
    refine ⟨stem, (Ext (Base filename)).data, hstem, ?_⟩
    unfold filePrepender
    simp only []
    rw [Sprintf_fmTemplate, TrimSuffix_Ext _ stem hstem]
    have h1 : ("_" : String) = ⟨['_']⟩ := rfl
    have h2 : (" " : String) = ⟨[' ']⟩ := rfl
    rw [h1, h2, ReplaceAll_single]
  · intro h
    refine ⟨Base_last_element filename h, ?_⟩
    intro dir
    unfold filePrepender
    rw [Base_dir dir filename h]

/-- C9 at `my_command.md`: title and description are `my command`, also
with the directory `docs` in front. -/
theorem filePrepender_front_matter_witness :
    filePrepender "docs/my_command.md" = filePrepender "my_command.md" ∧
    filePrepender "my_command.md" =
      "---\ntitle: \"my command\"\ndescription: \"my command\"\ncategories: Libraries & Tools\ntype: Commands\ntags: qlik-cli\nproducts: Qlik Cloud, QSEoK\n---\n" :=
  ⟨((filePrepender_front_matter "my_command.md").2 ⟨'m', by decide, by decide⟩).2 "docs",
   by decide⟩

theorem toNat_ofNat_lower : ∀ n : Nat, n < 91 → (Char.ofNat (n + 32)).toNat = n + 32 := by
  decide

/-- C10: for every target document name, `linkHandler` returns
`/libraries-and-tools/` followed by the stem of the name, that is the name
without its extension, in which every underscore is a hyphen, every ASCII
capital `A` to `Z` (code 65 to 90) is the small letter 32 codes above it, every
other ASCII character is itself, and every character outside ASCII is its
image under the case table of the Go runtime. When that table gives no ASCII
capital, the result holds no ASCII capital. For `my_command.md` the result is
`/libraries-and-tools/my-command`, for `Docs_For_ABZ.MD` it is
`/libraries-and-tools/docs-for-abz`. -/
theorem linkHandler_link (tbl : Char → Char) (name : String) :
    (∃ stem ext : List Char, IsExtension name.data stem ext ∧
      (linkHandler tbl name).data = "/libraries-and-tools/".data ++
        stem.map (fun c =>
          if c = '_' then '-'
          else if 65 ≤ c.toNat ∧ c.toNat ≤ 90 then Char.ofNat (c.toNat + 32)
          else if c.toNat < 128 then c
          else tbl c)) ∧
    ((∀ c : Char, 128 ≤ c.toNat → ¬ (65 ≤ (tbl c).toNat ∧ (tbl c).toNat ≤ 90)) →
      ∀ c ∈ (linkHandler tbl name).data, ¬ (65 ≤ c.toNat ∧ c.toNat ≤ 90)) ∧
    linkHandler tbl "my_command.md" = "/libraries-and-tools/my-command" ∧
    linkHandler tbl "My_Command.md" = "/libraries-and-tools/my-command" ∧
    linkHandler tbl "Docs_For_ABZ.MD" = "/libraries-and-tools/docs-for-abz" := by
  obtain ⟨stem, hstem⟩ := Ext_isExtension name
  have hdata : (linkHandler tbl name).data = "/libraries-and-tools/".data ++
      stem.map (fun c =>
        if c = '_' then '-'
        else if 65 ≤ c.toNat ∧ c.toNat ≤ 90 then Char.ofNat (c.toNat + 32)
        else if c.toNat < 128 then c
        else tbl c) := by
    unfold linkHandler
    simp only []
    rw [TrimSuffix_Ext _ stem hstem]
    have h1 : ("_" : String) = ⟨['_']⟩ := rfl
    have h2 : ("-" : String) = ⟨['-']⟩ := rfl
    rw [String.data_append, h1, h2]
    simp only [ToLower, ReplaceAll_single, List.map_map]
    congr 1
    apply List.map_congr_left
    intro c _
    simp only [Function.comp]
    by_cases hu : c = '_'
    · subst hu
      rfl
    · simp only [hu, if_false]
      unfold toLowerRune
      by_cases hcap : 65 ≤ c.toNat ∧ c.toNat ≤ 90
      · have hlt : c.toNat < 128 := by omega
        have hcap2 : 'A'.toNat ≤ c.toNat ∧ c.toNat ≤ 'Z'.toNat := hcap
        rw [if_pos hlt, if_pos hcap2, if_pos hcap]
      · have hcap2 : ¬ ('A'.toNat ≤ c.toNat ∧ c.toNat ≤ 'Z'.toNat) := hcap
        rw [if_neg hcap]
        by_cases hlt : c.toNat < 128
        · rw [if_pos hlt, if_neg hcap2, if_pos hlt]
        · rw [if_neg hlt, if_neg hlt]
  refine ⟨⟨stem, (Ext name).data, hstem, hdata⟩, ?_, rfl, rfl, rfl⟩
  intro htbl c hc
  rw [hdata, List.mem_append] at hc
  rcases hc with hc | hc
  · have hpre : ∀ x ∈ "/libraries-and-tools/".data, ¬ (65 ≤ x.toNat ∧ x.toNat ≤ 90) := by
      decide
    exact hpre c hc
  · obtain ⟨x, _, hx⟩ := List.mem_map.1 hc
    rw [← hx]
    by_cases hu : x = '_'
    · rw [if_pos hu]
      decide
    · rw [if_neg hu]
      by_cases hcap : 65 ≤ x.toNat ∧ x.toNat ≤ 90
      · rw [if_pos hcap, toNat_ofNat_lower x.toNat (by omega)]
        omega
      · rw [if_neg hcap]
        by_cases hlt : x.toNat < 128
        · rw [if_pos hlt]
          exact hcap
        · rw [if_neg hlt]
          exact htbl x (by omega)

/-- C10 at `my_command.md` and at `Docs_For_ABZ.MD`, with a case table that
leaves the characters outside ASCII as they are. -/
theorem linkHandler_link_witness :
    linkHandler id "my_command.md" = "/libraries-and-tools/my-command" ∧
    linkHandler id "Docs_For_ABZ.MD" = "/libraries-and-tools/docs-for-abz" ∧
    ∀ c ∈ (linkHandler id "Docs_For_ABZ.MD").data, ¬ (65 ≤ c.toNat ∧ c.toNat ≤ 90) :=
  ⟨(linkHandler_link id "my_command.md").2.2.1,
   (linkHandler_link id "Docs_For_ABZ.MD").2.2.2.2,
   (linkHandler_link id "Docs_For_ABZ.MD").2.1 (by
      intro c hc h
      simp only [id] at h
      omega)⟩

/-! ## Lemmas for the envelope, the stability tag and the sibling map -/

theorem GoMap.index_append {α : Type} (k : String) (a b : GoMap α) :
    GoMap.index k (a ++ b) = (GoMap.index k a).orElse (fun _ => GoMap.index k b) := by
  induction a with
  | nil => rfl
  | cons e rest ih =>
    obtain ⟨k0, v0⟩ := e
    by_cases h : k0 = k
    · simp [GoMap.index, h]
    · simp only [List.cons_append, GoMap.index, h, if_false]
      exact ih

theorem GoMap.index_omitEmpty (k key value : String) :
    GoMap.index k (omitEmpty key value) =
      if key = k ∧ value ≠ "" then some (JSON.str value) else none := by
  rw [omitEmpty_eq]
  by_cases hv : value = ""
  · simp [hv, GoMap.index]
  · by_cases hk : key = k
    · simp [hv, hk, GoMap.index]
    · simp [hv, hk, GoMap.index]

theorem GoMap.index_omitEmptyMap (k key : String) (members : List (String × JSON)) :
    GoMap.index k (omitEmptyMap key members) =
      if key = k ∧ members.isEmpty = false then some (JSON.obj (sortMembers members))
      else none := by
  unfold omitEmptyMap
  cases members with
  | nil => simp [GoMap.index]
  | cons e rest =>
    by_cases hk : key = k
    · simp [hk, GoMap.index]
    · simp [hk, GoMap.index]

theorem GoMap.index_omitEmptyGo (k key : String) (value : GoString) :
    GoMap.index k (omitEmptyGo key value) =
      if key = k ∧ value.isEmpty = false then some (JSON.ofGoString value) else none := by
  unfold omitEmptyGo
  cases value with
  | nil => simp [GoMap.index]
  | cons e rest =>
    by_cases hk : key = k
    · simp [hk, GoMap.index]
    · simp [hk, GoMap.index]

theorem commandJSON.toJSON_eq (c : commandJSON) :
    c.toJSON = JSON.obj (omitEmpty "alias" c.Alias ++ omitEmptyGo "description" c.Long ++
      omitEmpty "x-qlik-stability" c.Stability ++ omitEmpty "deprecated" c.Deprecated ++
      omitEmptyMap "flags" (flagsToJSON c.Flags) ++
      omitEmptyMap "commands" (commandsToJSON c.SubCommands)) := by
  obtain ⟨a, l, st, d, f, subs⟩ := c
  rw [commandJSON.toJSON]

/-- The members `x-qlik-stability`, `flags` and `commands` of the encoding of
a record. -/
theorem commandJSON_member_shared (c : commandJSON) :
    JSON.member "x-qlik-stability" c.toJSON =
      (if c.Stability = "" then none else some (JSON.str c.Stability)) ∧
    JSON.member "flags" c.toJSON =
      (if (flagsToJSON c.Flags).isEmpty then none
       else some (JSON.obj (sortMembers (flagsToJSON c.Flags)))) ∧
    JSON.member "commands" c.toJSON =
      (if (commandsToJSON c.SubCommands).isEmpty then none
       else some (JSON.obj (sortMembers (commandsToJSON c.SubCommands)))) := by
  rw [commandJSON.toJSON_eq]
  simp only [JSON.member, GoMap.index_append, GoMap.index_omitEmpty, GoMap.index_omitEmptyMap,
    GoMap.index_omitEmptyGo]
  refine ⟨?_, ?_, ?_⟩
  · by_cases h : c.Stability = "" <;> simp [h]
  · cases h : (flagsToJSON c.Flags).isEmpty <;> simp
  · cases h : (commandsToJSON c.SubCommands).isEmpty <;> simp

/-- The members `x-qlik-stability`, `flags` and `commands` of the encoding of
an envelope. -/
theorem spec_member_shared (s : spec) :
    JSON.member "x-qlik-stability" s.toJSON =
      (if s.Stability = "" then none else some (JSON.str s.Stability)) ∧
    JSON.member "flags" s.toJSON =
      (if (flagsToJSON s.Flags).isEmpty then none
       else some (JSON.obj (sortMembers (flagsToJSON s.Flags)))) ∧
    JSON.member "commands" s.toJSON =
      (if (commandsToJSON s.SubCommands).isEmpty then none
       else some (JSON.obj (sortMembers (commandsToJSON s.SubCommands)))) := by
  unfold spec.toJSON
  simp only [JSON.member, GoMap.index_append, GoMap.index_omitEmpty, GoMap.index_omitEmptyMap]
  refine ⟨?_, ?_, ?_⟩
  · by_cases h : s.Stability = "" <;> simp [h, GoMap.index]
  · cases h : (flagsToJSON s.Flags).isEmpty <;> simp [GoMap.index]
  · cases h : (commandsToJSON s.SubCommands).isEmpty <;> simp [GoMap.index]

/-- C11: for a root all of whose descendants have a token in their usage
string, the export builds an envelope and `returnCmdspec` returns a record
for the root, and the stability tag, the flag mapping and the child-command
mapping of the envelope are those of the record, and `info.description` is
the description of the record; so are the members `x-qlik-stability`,
`flags` and `commands` of the two encodings. -/
theorem spec_is_root_record_flattened (root : Command) (version : String)
    (hwf : root.wellFormed = true) :
    ∃ s r, buildSpec root version = some s ∧ returnCmdspec root = some r ∧
      s.Stability = r.Stability ∧ s.Flags = r.Flags ∧ s.SubCommands = r.SubCommands ∧
      s.Info.Description = r.Long ∧
      JSON.member "x-qlik-stability" s.toJSON = JSON.member "x-qlik-stability" r.toJSON ∧
      JSON.member "flags" s.toJSON = JSON.member "flags" r.toJSON ∧
      JSON.member "commands" s.toJSON = JSON.member "commands" r.toJSON := by
  have hsome : (returnCommands root.Commands).isSome = true := by
    rw [returnCommands_isSome, hwf]
  obtain ⟨m, hm⟩ := Option.isSome_iff_exists.1 hsome
  have hs := buildSpec_eq root version
  have hr := returnCmdspec_eq root
  rw [hm, Option.map_some'] at hs hr
  refine ⟨_, _, hs, hr, rfl, rfl, rfl, rfl, ?_, ?_, ?_⟩
  · rw [(spec_member_shared _).1, (commandJSON_member_shared _).1]
  · rw [(spec_member_shared _).2.1, (commandJSON_member_shared _).2.1]
  · rw [(spec_member_shared _).2.2, (commandJSON_member_shared _).2.2]

/-- C11 at a root with a stability annotation, a flag and a child. -/
theorem spec_is_root_record_flattened_witness :
    ∃ s r, buildSpec exBareRoot "v1.0.0" = some s ∧ returnCmdspec exBareRoot = some r ∧
      s.Stability = r.Stability ∧ s.Flags = r.Flags ∧ s.SubCommands = r.SubCommands ∧
      s.Info.Description = r.Long := by
  obtain ⟨s, r, h1, h2, h3, h4, h5, h6, _⟩ :=
    spec_is_root_record_flattened exBareRoot "v1.0.0" (by decide)
  exact ⟨s, r, h1, h2, h3, h4, h5, h6⟩

/-- C12: `returnStability` returns the value under the key `x-qlik-stability`
when the key is present and the empty string when it is absent, in
particular for a map without entries; an entry under another key does not
change the result; and a record with an empty stability tag is encoded
without the member `x-qlik-stability`, one with a non-empty tag with it. -/
theorem returnStability_reads_one_key (annotations : GoMap String) :
    (∀ v, GoMap.index "x-qlik-stability" annotations = some v →
      returnStability annotations = v) ∧
    (GoMap.index "x-qlik-stability" annotations = none → returnStability annotations = "") ∧
    returnStability [] = "" ∧
    (∀ k v, k ≠ "x-qlik-stability" →
      returnStability (GoMap.assign k v annotations) = returnStability annotations) ∧
    (∀ other : GoMap String,
      GoMap.index "x-qlik-stability" other = GoMap.index "x-qlik-stability" annotations →
      returnStability other = returnStability annotations) ∧
    (∀ c : commandJSON, JSON.member "x-qlik-stability" c.toJSON =
      if c.Stability = "" then none else some (JSON.str c.Stability)) := by
  refine ⟨?_, ?_, rfl, ?_, ?_, ?_⟩
  · intro v h
    simp [returnStability, h]
  · intro h
    simp [returnStability, h]
  · intro k v hk
    unfold returnStability
    rw [GoMap.index_assign]
    have hk' : ¬ "x-qlik-stability" = k := fun e => hk e.symm
    simp [hk']
  · intro other h
    unfold returnStability
    rw [h]
  · intro c
    exact (commandJSON_member_shared c).1

/-- C12 at annotations with the stability tag `stable` and one other entry,
and at annotations without the key. -/
theorem returnStability_reads_one_key_witness :
    returnStability [("owner", "core"), ("x-qlik-stability", "stable")] = "stable" ∧
    returnStability [("owner", "core")] = "" :=
  ⟨(returnStability_reads_one_key
      [("owner", "core"), ("x-qlik-stability", "stable")]).1 "stable" (by decide),
   (returnStability_reads_one_key [("owner", "core")]).2.1 (by decide)⟩

/-- C16: two root commands that agree in everything but their alias list
and deprecation message give the same envelope and the same exported text,
for the same version string. -/
theorem spec_ignores_root_aliases_and_deprecation (r1 r2 : Command) (version : String)
    (hUse : r1.Use = r2.Use) (hLong : r1.Long = r2.Long)
    (hAnn : r1.Annotations = r2.Annotations) (hFlags : r1.LocalFlags = r2.LocalFlags)
    (hCmds : r1.Commands = r2.Commands) :
    buildSpec r1 version = buildSpec r2 version ∧
      generateSpec r1 version = generateSpec r2 version := by
  have h : buildSpec r1 version = buildSpec r2 version := by
    rw [buildSpec_eq, buildSpec_eq, hUse, hLong, hAnn, hFlags, hCmds]
  exact ⟨h, by unfold generateSpec; rw [h]⟩

/-- C16 at a root with aliases and a deprecation message and the same root
without them; the records `returnCmdspec` returns for the two roots differ
in the alias. -/
theorem spec_ignores_root_aliases_and_deprecation_witness :
    buildSpec exBareRoot "v1.0.0" =
      buildSpec ⟨"", "the tool", "", [], [("x-qlik-stability", "stable")], [exOut], [exAdd]⟩
        "v1.0.0" ∧
    (returnCmdspec exBareRoot).map (fun r => r.Alias) = some "t" ∧
    (returnCmdspec
      ⟨"", "the tool", "", [], [("x-qlik-stability", "stable")], [exOut], [exAdd]⟩).map
        (fun r => r.Alias) = some "" :=
  ⟨(spec_ignores_root_aliases_and_deprecation exBareRoot
      ⟨"", "the tool", "", [], [("x-qlik-stability", "stable")], [exOut], [exAdd]⟩
      "v1.0.0" rfl rfl rfl rfl rfl).1, rfl, rfl⟩

/-- The loop of `strings.Fields` returns no token exactly when it holds no
token being read and only white space is left. -/
theorem fieldsLoop_eq_nil_iff (s : List Char) :
    ∀ cur : List Char, fieldsLoop cur s = [] ↔ cur = [] ∧ ∀ c ∈ s, isSpace c = true := by
  induction s with
  | nil =>
    intro cur
    cases cur with
    | nil => simp [fieldsLoop]
    | cons a as => simp [fieldsLoop]
  | cons c cs ih =>
    intro cur
    rw [fieldsLoop]
    by_cases hsp : isSpace c = true
    · cases cur with
      | nil =>
        simp only [hsp, if_true, List.isEmpty_nil, ih, true_and, List.mem_cons, forall_eq_or_imp]
      | cons a as => simp [hsp]
    · simp only [hsp, if_false, ih, Bool.false_eq_true]
      constructor
      · intro h
        exact absurd h.1 (by simp)
      · intro h
        exact absurd (h.2 c (List.mem_cons_self _ _)) hsp

theorem firstToken_isSome (use : String) : (firstToken use).isSome = hasNonSpace use := by
  unfold firstToken Fields hasNonSpace
  by_cases h : fieldsLoop [] use.data = []
  · have hall := ((fieldsLoop_eq_nil_iff use.data []).1 h).2
    rw [h]
    symm
    simp only [List.map_nil, List.head?_nil, Option.isSome_none, List.any_eq_false,
      Bool.not_eq_true, Bool.not_eq_false']
    exact hall
  · have hex : ¬ ∀ c ∈ use.data, isSpace c = true := fun hall =>
      h ((fieldsLoop_eq_nil_iff use.data []).2 ⟨rfl, hall⟩)
    have h1 : (List.map String.mk (fieldsLoop [] use.data)).head?.isSome = true := by
      cases hf : fieldsLoop [] use.data with
      | nil => exact absurd hf h
      | cons t ts => rfl
    rw [h1]
    symm
    simp only [List.any_eq_true, Bool.not_eq_true']
    by_contra hno
    apply hex
    intro c hc
    by_contra hsp
    exact hno ⟨c, hc, by simpa using hsp⟩

mutual
theorem usagesNonBlank_eq_wellFormed : ∀ c : Command, c.usagesNonBlank = c.wellFormed
  | ⟨use, long, dep, al, ann, fl, cmds⟩ => by
    rw [Command.usagesNonBlank, Command.wellFormed]
    exact usagesNonBlankList_eq_wellFormedList cmds
theorem usagesNonBlankList_eq_wellFormedList : ∀ cs : List Command,
    usagesNonBlankList cs = wellFormedList cs
  | [] => by rw [usagesNonBlankList, wellFormedList]
  | c :: rest => by
    rw [usagesNonBlankList, wellFormedList, usagesNonBlank_eq_wellFormed c,
      usagesNonBlankList_eq_wellFormedList rest, firstToken_isSome]
end

/-- C14: for a command tree in which the usage string of every command below
the root has a character that is not white space, `returnCmdspec` at the
root returns a record, and it returns the same record whatever the usage
string of the root is, the empty string included. The function is total:
it is defined by recursion on the finite tree. -/
theorem returnCmdspec_returns_of_nonblank (root : Command)
    (h : root.usagesNonBlank = true) :
    ∃ r, returnCmdspec root = some r ∧
      ∀ use : String, returnCmdspec ⟨use, root.Long, root.Deprecated, root.Aliases,
        root.Annotations, root.LocalFlags, root.Commands⟩ = some r := by
  have hsome : (returnCmdspec root).isSome = true := by
    rw [returnCmdspec_isSome, ← usagesNonBlank_eq_wellFormed, h]
  obtain ⟨r, hr⟩ := Option.isSome_iff_exists.1 hsome
  refine ⟨r, hr, ?_⟩
  intro use
  rw [returnCmdspec_eq] at hr ⊢
  exact hr

/-- C14 at a root with an empty usage string and the child `add <name>`. -/
theorem returnCmdspec_returns_of_nonblank_witness :
    ∃ r, returnCmdspec exBareRoot = some r ∧
      ∀ use : String, returnCmdspec ⟨use, exBareRoot.Long, exBareRoot.Deprecated,
        exBareRoot.Aliases, exBareRoot.Annotations, exBareRoot.LocalFlags,
        exBareRoot.Commands⟩ = some r :=
  returnCmdspec_returns_of_nonblank exBareRoot (by decide)

theorem GoMap.keys_assign {α : Type} (k : String) (v : α) (m : GoMap α) :
    GoMap.keys (GoMap.assign k v m) =
      if k ∈ GoMap.keys m then GoMap.keys m else GoMap.keys m ++ [k] := by
  induction m with
  | nil => simp [GoMap.assign, GoMap.keys]
  | cons e rest ih =>
    obtain ⟨k0, v0⟩ := e
    by_cases h0 : k0 = k
    · subst h0
      simp [GoMap.assign, GoMap.keys]
    · have h0' : ¬ k = k0 := fun e => h0 e.symm
      simp only [GoMap.keys] at ih
      simp only [GoMap.assign, h0, if_false, GoMap.keys, List.map_cons, List.mem_cons, h0',
        false_or, ih]
      by_cases hmem : k ∈ List.map Prod.fst rest
      · simp [hmem]
      · simp [hmem]

theorem GoMap.keys_assign_nodup {α : Type} (k : String) (v : α) (m : GoMap α)
    (h : (GoMap.keys m).Nodup) : (GoMap.keys (GoMap.assign k v m)).Nodup := by
  rw [GoMap.keys_assign]
  by_cases hmem : k ∈ GoMap.keys m
  · simp only [hmem, if_true]
    exact h
  · simp only [hmem, if_false]
    rw [List.nodup_append]
    refine ⟨h, List.nodup_singleton k, ?_⟩
    intro a ha hb
    rw [List.mem_singleton] at hb
    exact hmem (hb ▸ ha)

theorem GoMap.mem_keys_iff {α : Type} (k : String) (m : GoMap α) :
    k ∈ GoMap.keys m ↔ ∃ v, GoMap.index k m = some v := by
  induction m with
  | nil => simp [GoMap.keys, GoMap.index]
  | cons e rest ih =>
    obtain ⟨k0, v0⟩ := e
    by_cases h0 : k0 = k
    · simp [GoMap.keys, GoMap.index, h0]
    · have h0' : ¬ k = k0 := fun e => h0 e.symm
      simp only [GoMap.keys] at ih
      simp only [GoMap.keys, List.map_cons, List.mem_cons, h0', false_or, GoMap.index, h0,
        if_false, ih]

/-- The loop over a list with a command singled out: the part before it, the
assignment for it, the part after it. -/
theorem returnCommandsLoop_split (pre : List Command) (c : Command) (post : List Command) :
    ∀ (acc m : GoMap commandJSON), returnCommandsLoop (pre ++ c :: post) acc = some m →
      ∃ acc1 key r, firstToken c.Use = some key ∧ returnCmdspec c = some r ∧
        returnCommandsLoop post (GoMap.assign key r acc1) = some m := by
  induction pre with
  | nil =>
    intro acc m h
    rw [List.nil_append, returnCommandsLoop_cons] at h
    cases hk : firstToken c.Use with
    | none => simp [hk] at h
    | some key =>
      cases hr : returnCmdspec c with
      | none => simp [hk, hr] at h
      | some r =>
        simp only [hk, hr, Option.bind_some] at h
        exact ⟨acc, key, r, rfl, rfl, h⟩
  | cons x rest ih =>
    intro acc m h
    rw [List.cons_append, returnCommandsLoop_cons] at h
    cases hk : firstToken x.Use with
    | none => simp [hk] at h
    | some key =>
      cases hr : returnCmdspec x with
      | none => simp [hk, hr] at h
      | some r =>
        simp only [hk, hr, Option.bind_some] at h
        exact ih _ _ h

theorem returnCommandsLoop_keys_nodup (cs : List Command) :
    ∀ (acc m : GoMap commandJSON), returnCommandsLoop cs acc = some m →
      (GoMap.keys acc).Nodup → (GoMap.keys m).Nodup := by
  induction cs with
  | nil =>
    intro acc m h hnd
    rw [returnCommandsLoop_nil] at h
    cases h
    exact hnd
  | cons x rest ih =>
    intro acc m h hnd
    rw [returnCommandsLoop_cons] at h
    cases hk : firstToken x.Use with
    | none => simp [hk] at h
    | some key =>
      cases hr : returnCmdspec x with
      | none => simp [hk, hr] at h
      | some r =>
        simp only [hk, hr, Option.bind_some] at h
        exact ih _ _ h (GoMap.keys_assign_nodup key r acc hnd)

/-- The keys of the map the loop starts from and the first tokens of the
commands it visits are keys of the map it returns. -/
theorem returnCommandsLoop_keys_mem (cs : List Command) :
    ∀ (acc m : GoMap commandJSON), returnCommandsLoop cs acc = some m →
      ∀ k, (k ∈ GoMap.keys acc ∨ ∃ c ∈ cs, firstToken c.Use = some k) → k ∈ GoMap.keys m := by
  induction cs with
  | nil =>
    intro acc m h k hk
    rw [returnCommandsLoop_nil] at h
    cases h
    rcases hk with hk | ⟨c, hc, _⟩
    · exact hk
    · simp at hc
  | cons x rest ih =>
    intro acc m h k hk
    rw [returnCommandsLoop_cons] at h
    cases hkx : firstToken x.Use with
    | none => simp [hkx] at h
    | some key =>
      cases hr : returnCmdspec x with
      | none => simp [hkx, hr] at h
      | some r =>
        simp only [hkx, hr, Option.bind_some] at h
        apply ih _ _ h k
        have hkeys := GoMap.keys_assign key r acc
        rcases hk with hk | ⟨c, hc, hck⟩
        · left
          rw [hkeys]
          by_cases hmem : key ∈ GoMap.keys acc
          · simp only [hmem, if_true]
            exact hk
          · simp only [hmem, if_false]
            exact List.mem_append_left _ hk
        · rcases List.mem_cons.1 hc with e | hmem
          · subst e
            left
            rw [hkx] at hck
            have hkk : key = k := Option.some.inj hck
            rw [hkeys, ← hkk]
            by_cases hmem : key ∈ GoMap.keys acc
            · simp only [hmem, if_true]
            · simp only [hmem, if_false]
              simp
          · exact Or.inr ⟨c, hmem, hck⟩

/-- C15: for a list of sibling commands that have, like every command below
them, a token in their usage string, `returnCommands` returns a mapping
whose keys are pairwise distinct and are exactly the first tokens of the
siblings, so that it has one entry for each distinct first token; and the
entry under a token holds the record of the last sibling in the list with
that token. -/
theorem returnCommands_last_write_wins (commands : List Command)
    (hwf : wellFormedList commands = true) :
    ∃ m, returnCommands commands = some m ∧
      (GoMap.keys m).Nodup ∧
      (∀ k, k ∈ GoMap.keys m ↔ ∃ c ∈ commands, firstToken c.Use = some k) ∧
      m.length = ((commands.map (fun c => firstToken c.Use)).dedup).length ∧
      (∀ pre c post k, commands = pre ++ c :: post → firstToken c.Use = some k →
        (∀ s ∈ post, firstToken s.Use ≠ some k) →
        ∃ r, returnCmdspec c = some r ∧ GoMap.index k m = some r) := by
  have hsome : (returnCommands commands).isSome = true := by
    unfold returnCommands
    rw [returnCommandsLoop_isSome, hwf]
  obtain ⟨m, hm⟩ := Option.isSome_iff_exists.1 hsome
  have hnd : (GoMap.keys m).Nodup :=
    returnCommandsLoop_keys_nodup commands [] m hm (by simp [GoMap.keys])
  have hkeys : ∀ k, k ∈ GoMap.keys m ↔ ∃ c ∈ commands, firstToken c.Use = some k := by
    intro k
    constructor
    · intro hk
      rcases returnCommandsLoop_keys commands [] m hm k hk with h | h
      · simp [GoMap.keys] at h
      · exact h
    · intro h
      exact returnCommandsLoop_keys_mem commands [] m hm k (Or.inr h)
  refine ⟨m, hm, hnd, hkeys, ?_, ?_⟩
  · have hperm : ((GoMap.keys m).map some).Perm
        ((commands.map (fun c => firstToken c.Use)).dedup) := by
      rw [List.perm_ext_iff_of_nodup (hnd.map (Option.some_injective _)) (List.nodup_dedup _)]
      intro a
      rw [List.mem_dedup, List.mem_map, List.mem_map]
      constructor
      · rintro ⟨k, hk, rfl⟩
        obtain ⟨c, hc, hck⟩ := (hkeys k).1 hk
        exact ⟨c, hc, hck⟩
      · rintro ⟨c, hc, rfl⟩
        obtain ⟨key, r, hkey, _⟩ := returnCommandsLoop_some_mem commands [] m hm c hc
        exact ⟨key, (hkeys key).2 ⟨c, hc, hkey⟩, hkey.symm⟩
    have hlen := hperm.length_eq
    simp only [List.length_map, GoMap.keys] at hlen
    exact hlen
  · intro pre c post k hsplit hk hpost
    rw [hsplit] at hm
    obtain ⟨acc1, key, r, hkey, hr, hloop⟩ := returnCommandsLoop_split pre c post [] m hm
    have hkk : key = k := by
      rw [hk] at hkey
      exact (Option.some.inj hkey).symm
    rw [hkk] at hloop
    refine ⟨r, hr, ?_⟩
    rw [returnCommandsLoop_index_other k post _ m hloop hpost, GoMap.index_assign]
    simp

/-- C15 at the siblings `get <id>`, `put <id>`, `get --all`: two entries,
and the entry `get` is the record of `get --all`. -/
theorem returnCommands_last_write_wins_witness :
    ∃ m, returnCommands exSiblings = some m ∧ m.length = 2 ∧
      (GoMap.index "get" m).map (fun r => r.Long) = some "last" := by
  obtain ⟨m, hm, _, _, hlen, hlast⟩ := returnCommands_last_write_wins exSiblings (by decide)
  obtain ⟨r, hr, hidx⟩ := hlast [⟨"get <id>", "first", "", [], [], [], []⟩, leaf "put <id>"]
    ⟨"get --all", "last", "", [], [], [], []⟩ [] "get" rfl (by decide) (by simp)
  refine ⟨m, hm, ?_, ?_⟩
  · rw [hlen]
    decide
  · rw [hidx]
    have hr' : some r = returnCmdspec ⟨"get --all", "last", "", [], [], [], []⟩ := hr.symm
    cases hr'
    rfl

/-! ## Lemmas on the decoder: string literals -/

theorem hexValue_hexDigit : ∀ n : Nat, n < 16 → hexValue (hexDigit n) = some n := by
  decide

theorem unicodeEscape_low (n : Nat) (h : n < 256) :
    unicodeEscape '0' '0' (hexDigit (n / 16)) (hexDigit (n % 16)) = some (Char.ofNat n) := by
  have h1 : n / 16 < 16 := by omega
  have h2 : n % 16 < 16 := by omega
  have h0 : hexValue '0' = some 0 := by decide
  unfold unicodeEscape
  rw [h0, hexValue_hexDigit _ h1, hexValue_hexDigit _ h2]
  have hn : ((0 * 16 + 0) * 16 + n / 16) * 16 + n % 16 = n := by omega
  simp only [hn]
  have hlt : ¬ (0xD800 ≤ n ∧ n < 0xE000) := by omega
  simp [hlt]

theorem Char.eq_of_toNat_eq (c : Char) (n : Nat) (h : c.toNat = n) : c = Char.ofNat n := by
  rw [← h, Char.ofNat_toNat]

theorem unquoteLoop_quote (acc rest : List Char) :
    unquoteLoop acc ('"' :: rest) = some (⟨acc.reverse⟩, rest) := by
  rw [unquoteLoop.eq_def]
  simp

theorem unquoteLoop_simple (acc rest : List Char) (e r : Char) (he : e ≠ 'u')
    (hr : simpleEscape e = some r) :
    unquoteLoop acc ('\\' :: e :: rest) = unquoteLoop (r :: acc) rest := by
  rw [unquoteLoop.eq_def]
  simp [he, hr]

theorem unquoteLoop_unicode (acc rest : List Char) (a b c d r : Char)
    (hr : unicodeEscape a b c d = some r) :
    unquoteLoop acc ('\\' :: 'u' :: a :: b :: c :: d :: rest) = unquoteLoop (r :: acc) rest := by
  rw [unquoteLoop.eq_def]
  simp [hr]

theorem unquoteLoop_plain (acc rest : List Char) (c : Char) (h1 : c ≠ '"') (h2 : c ≠ '\\')
    (h3 : ¬ c.toNat < 0x20) :
    unquoteLoop acc (c :: rest) = unquoteLoop (c :: acc) rest := by
  rw [unquoteLoop.eq_def]
  simp [h1, h2, h3]

/-- Reading the escape of a character gives the character back. -/
theorem unquoteLoop_escapeRune (c : Char) (acc tail : List Char) :
    unquoteLoop acc (escapeRune c ++ tail) = unquoteLoop (c :: acc) tail := by
  unfold escapeRune
  by_cases h1 : c = '"'
  · subst h1
    exact unquoteLoop_simple acc tail '"' '"' (by decide) (by decide)
  by_cases h2 : c = '\\'
  · subst h2
    exact unquoteLoop_simple acc tail '\\' '\\' (by decide) (by decide)
  by_cases h3 : c = '\n'
  · subst h3
    exact unquoteLoop_simple acc tail 'n' '\n' (by decide) (by decide)
  by_cases h4 : c = '\r'
  · subst h4
    exact unquoteLoop_simple acc tail 'r' '\r' (by decide) (by decide)
  by_cases h5 : c = '\t'
  · subst h5
    exact unquoteLoop_simple acc tail 't' '\t' (by decide) (by decide)
  simp only [h1, h2, h3, h4, h5, if_false]
  by_cases hb : c.toNat = 8
  · rw [if_pos hb]
    have hc := Char.eq_of_toNat_eq c 8 hb
    rw [hc]
    exact unquoteLoop_simple acc tail 'b' (Char.ofNat 8) (by decide) (by decide)
  rw [if_neg hb]
  by_cases hf : c.toNat = 12
  · rw [if_pos hf]
    have hc := Char.eq_of_toNat_eq c 12 hf
    rw [hc]
    exact unquoteLoop_simple acc tail 'f' (Char.ofNat 12) (by decide) (by decide)
  rw [if_neg hf]
  by_cases h6 : (decide (c.toNat < 0x20) || decide (c = '<') || decide (c = '>') ||
      decide (c = '&')) = true
  · have hlow : c.toNat < 256 := by
      simp only [Bool.or_eq_true, decide_eq_true_eq] at h6
      rcases h6 with ((h | h) | h) | h
      · omega
      · subst h; decide
      · subst h; decide
      · subst h; decide
    have hesc := unicodeEscape_low c.toNat hlow
    rw [Char.ofNat_toNat] at hesc
    rw [if_pos h6]
    exact unquoteLoop_unicode acc tail _ _ _ _ c hesc
  · rw [if_neg h6]
    have hge : ¬ c.toNat < 0x20 := by
      intro hlt
      apply h6
      simp [hlt]
    by_cases h7 : c.toNat = 0x2028
    · rw [if_pos h7]
      have hc := Char.eq_of_toNat_eq c _ h7
      rw [hc]
      exact unquoteLoop_unicode acc tail '2' '0' '2' '8' _ (by decide)
    rw [if_neg h7]
    by_cases h8 : c.toNat = 0x2029
    · rw [if_pos h8]
      have hc := Char.eq_of_toNat_eq c _ h8
      rw [hc]
      exact unquoteLoop_unicode acc tail '2' '0' '2' '9' _ (by decide)
    rw [if_neg h8]
    exact unquoteLoop_plain acc tail c h1 h2 hge

theorem unquoteLoop_encoded (s : List Char) :
    ∀ acc rest : List Char,
      unquoteLoop acc (s.flatMap escapeRune ++ '"' :: rest) = some (⟨acc.reverse ++ s⟩, rest) := by
  induction s with
  | nil =>
    intro acc rest
    rw [List.flatMap_nil, List.nil_append, unquoteLoop_quote, List.append_nil]
  | cons c cs ih =>
    intro acc rest
    rw [List.flatMap_cons, List.append_assoc, unquoteLoop_escapeRune, ih]
    simp

/-- Reading the literal the encoder writes for a string gives the string
back, and the text after the literal. -/
theorem unquoteLoop_encodeString (s : String) (rest : List Char) :
    ∃ tail, encodeString s ++ rest = '"' :: tail ∧ unquoteLoop [] tail = some (s, rest) := by
  refine ⟨s.data.flatMap escapeRune ++ '"' :: rest, ?_, ?_⟩
  · simp [encodeString]
  · rw [unquoteLoop_encoded]
    rfl

theorem parseString_encodeString (s : String) (rest : List Char) :
    parseString (encodeString s ++ rest) = some (s, rest) := by
  obtain ⟨tail, h1, h2⟩ := unquoteLoop_encodeString s rest
  rw [h1]
  simp [parseString, h2]

/-! ## Lemmas on the decoder: reading the indented text -/

theorem skipSpace_cons_of_not (c : Char) (t : List Char) (h : isJSONSpace c = false) :
    skipSpace (c :: t) = c :: t := by
  simp [skipSpace, List.dropWhile_cons, h]

theorem skipSpace_replicate (n : Nat) (t : List Char) :
    skipSpace (List.replicate n ' ' ++ t) = skipSpace t := by
  induction n with
  | zero => rfl
  | succ n ih =>
    rw [List.replicate_succ, List.cons_append]
    unfold skipSpace at ih ⊢
    rw [List.dropWhile_cons]
    simp only [show isJSONSpace ' ' = true by decide, if_true]
    exact ih

theorem skipSpace_newline (d : Nat) (t : List Char) :
    skipSpace (newline d ++ t) = skipSpace t := by
  unfold newline
  rw [List.cons_append]
  have h := skipSpace_replicate (2 * d) t
  unfold skipSpace at h ⊢
  rw [List.dropWhile_cons]
  simp only [show isJSONSpace '\n' = true by decide, if_true]
  exact h

theorem skipSpace_space (t : List Char) : skipSpace (' ' :: t) = skipSpace t := by
  unfold skipSpace
  rw [List.dropWhile_cons]
  simp only [show isJSONSpace ' ' = true by decide, if_true]

theorem parseValue_string (fuel nesting : Nat) (tail rest : List Char) (s : String)
    (h : unquoteLoop [] tail = some (s, rest)) :
    parseValue (fuel + 1) nesting ('"' :: tail) = some (JSON.str s, rest) := by
  rw [parseValue.eq_def]
  simp [skipSpace_cons_of_not '"' tail (by decide), h]

theorem parseValue_empty_object (fuel nesting : Nat) (rest : List Char)
    (hn : nesting < maxNestingDepth) :
    parseValue (fuel + 1) nesting ('\x7b' :: '\x7d' :: rest) = some (JSON.obj [], rest) := by
  rw [parseValue.eq_def]
  simp [skipSpace_cons_of_not '\x7b' _ (by decide), skipSpace_cons_of_not '\x7d' _ (by decide),
    Nat.not_le.mpr hn]

theorem parseValue_object (fuel nesting : Nat) (t tail rest : List Char)
    (ms : List (String × JSON)) (hn : nesting < maxNestingDepth)
    (h1 : skipSpace t = '"' :: tail)
    (h2 : parseMembers fuel (nesting + 1) ('"' :: tail) = some (ms, rest)) :
    parseValue (fuel + 1) nesting ('\x7b' :: t) = some (JSON.obj ms, rest) := by
  rw [parseValue.eq_def]
  simp [skipSpace_cons_of_not '\x7b' _ (by decide), h1, h2, Nat.not_le.mpr hn]

theorem parseValue_space (fuel nesting : Nat) (t : List Char) :
    parseValue fuel nesting (' ' :: t) = parseValue fuel nesting t := by
  cases fuel with
  | zero => rw [parseValue, parseValue]
  | succ f =>
    rw [parseValue.eq_def]
    conv_rhs => rw [parseValue.eq_def]
    simp only [skipSpace_space]

theorem parseMembers_newline (fuel nesting d : Nat) (t : List Char) :
    parseMembers fuel nesting (newline d ++ t) = parseMembers fuel nesting t := by
  cases fuel with
  | zero => rw [parseMembers, parseMembers]
  | succ f =>
    rw [parseMembers.eq_def]
    conv_rhs => rw [parseMembers.eq_def]
    simp only [skipSpace_newline]

theorem parseMembers_last (fuel nesting : Nat) (text r r1 r2 r3 : List Char) (k : String)
    (v : JSON)
    (h1 : parseString (skipSpace text) = some (k, r))
    (h2 : skipSpace r = ':' :: r1)
    (h3 : parseValue fuel nesting r1 = some (v, r2))
    (h4 : skipSpace r2 = '\x7d' :: r3) :
    parseMembers (fuel + 1) nesting text = some ([(k, v)], r3) := by
  rw [parseMembers.eq_def]
  simp [h1, h2, h3, h4]

theorem parseMembers_more (fuel nesting : Nat) (text r r1 r2 r3 r4 : List Char) (k : String)
    (v : JSON) (ms : List (String × JSON))
    (h1 : parseString (skipSpace text) = some (k, r))
    (h2 : skipSpace r = ':' :: r1)
    (h3 : parseValue fuel nesting r1 = some (v, r2))
    (h4 : skipSpace r2 = ',' :: r3)
    (h5 : parseMembers fuel nesting r3 = some (ms, r4)) :
    parseMembers (fuel + 1) nesting text = some ((k, v) :: ms, r4) := by
  rw [parseMembers.eq_def]
  simp [h1, h2, h3, h4, h5]

theorem encodeString_cons (s : String) (t : List Char) :
    encodeString s ++ t = '"' :: (s.data.flatMap escapeRune ++ '"' :: t) := by
  simp [encodeString]

theorem skipSpace_encodeString (s : String) (t : List Char) :
    skipSpace (encodeString s ++ t) = encodeString s ++ t := by
  rw [encodeString_cons]
  exact skipSpace_cons_of_not '"' _ (by decide)

theorem encodeString_length (s : String) : 2 ≤ (encodeString s).length := by
  simp [encodeString]

mutual
/-- Reading the indented text of a value gives the value back, with enough
fuel: the length of the text is enough. -/
theorem parseValue_indented : ∀ (v : JSON) (d fuel nesting : Nat) (rest : List Char),
    JSON.noRaw v = true → nesting + JSON.depth v ≤ maxNestingDepth →
    (JSON.indented d v).length ≤ fuel →
      parseValue fuel nesting (JSON.indented d v ++ rest) = some (v, rest)
  | JSON.str s, d, fuel, nesting, rest => by
    intro _ _ hlen
    rw [JSON.indented] at hlen ⊢
    have h2 := encodeString_length s
    obtain ⟨f, rfl⟩ : ∃ f, fuel = f + 1 := ⟨fuel - 1, by omega⟩
    obtain ⟨tail, ht, hu⟩ := unquoteLoop_encodeString s rest
    rw [ht]
    exact parseValue_string f nesting tail rest s hu
  | JSON.raw u, d, fuel, nesting, rest => by
    intro hraw
    rw [JSON.noRaw] at hraw
    exact absurd hraw (by decide)
  | JSON.obj [], d, fuel, nesting, rest => by
    intro _ hdepth hlen
    rw [JSON.indented] at hlen ⊢
    rw [JSON.depth] at hdepth
    obtain ⟨f, rfl⟩ : ∃ f, fuel = f + 1 := ⟨fuel - 1, by simp at hlen; omega⟩
    exact parseValue_empty_object f nesting rest (by omega)
  | JSON.obj (m :: ms), d, fuel, nesting, rest => by
    intro hraw hdepth hlen
    rw [JSON.indented] at hlen ⊢
    rw [JSON.depth] at hdepth
    rw [JSON.noRaw] at hraw
    simp only [List.length_cons, List.length_append, List.length_nil] at hlen
    obtain ⟨f, rfl⟩ : ∃ f, fuel = f + 1 := ⟨fuel - 1, by omega⟩
    have hmem := parseMembers_indented (m :: ms) (d + 1) d f (nesting + 1) rest (by simp)
      hraw (by omega) (by omega)
    obtain ⟨k, v⟩ := m
    have hhead : ∃ tail, JSON.indentedMembers (d + 1) ((k, v) :: ms) ++
        (newline d ++ '\x7d' :: rest) = '"' :: tail := by
      cases ms with
      | nil =>
        rw [JSON.indentedMembers, List.append_assoc, encodeString_cons]
        exact ⟨_, rfl⟩
      | cons m2 ms2 =>
        rw [JSON.indentedMembers, List.append_assoc, encodeString_cons]
        exact ⟨_, rfl⟩
    obtain ⟨tail, htail⟩ := hhead
    rw [htail] at hmem
    have htext : '\x7b' :: (newline (d + 1) ++ JSON.indentedMembers (d + 1) ((k, v) :: ms) ++
        newline d ++ ['\x7d']) ++ rest =
        '\x7b' :: (newline (d + 1) ++ (JSON.indentedMembers (d + 1) ((k, v) :: ms) ++
          (newline d ++ '\x7d' :: rest))) := by
      simp
    rw [htext, htail]
    apply parseValue_object f nesting _ tail rest _ (by omega) _ hmem
    rw [skipSpace_newline]
    exact skipSpace_cons_of_not '"' _ (by decide)
/-- Reading the indented text of the members of an object, followed by the
line break and the closing brace, gives the members back. -/
theorem parseMembers_indented : ∀ (ms : List (String × JSON)) (d d' fuel nesting : Nat)
    (rest : List Char), ms ≠ [] → JSON.membersNoRaw ms = true →
    nesting + JSON.membersDepth ms ≤ maxNestingDepth →
    (JSON.indentedMembers d ms).length ≤ fuel →
      parseMembers fuel nesting
        (JSON.indentedMembers d ms ++ (newline d' ++ '\x7d' :: rest)) = some (ms, rest)
  | [], _, _, _, _, _ => by
    intro h
    exact absurd rfl h
  | [(k, v)], d, d', fuel, nesting, rest => by
    intro _ hraw hdepth hlen
    rw [JSON.indentedMembers] at hlen ⊢
    rw [JSON.membersDepth] at hdepth
    rw [JSON.membersNoRaw, Bool.and_eq_true] at hraw
    simp only [List.length_cons, List.length_append] at hlen
    have h2 := encodeString_length k
    obtain ⟨f, rfl⟩ : ∃ f, fuel = f + 1 := ⟨fuel - 1, by omega⟩
    have hv := parseValue_indented v d f nesting (newline d' ++ '\x7d' :: rest) hraw.1
      (by omega) (by omega)
    apply parseMembers_last f nesting _ (':' :: ' ' :: (JSON.indented d v ++
      (newline d' ++ '\x7d' :: rest))) (' ' :: (JSON.indented d v ++
      (newline d' ++ '\x7d' :: rest))) (newline d' ++ '\x7d' :: rest) rest k v
    · rw [List.append_assoc, skipSpace_encodeString, parseString_encodeString]
      simp
    · exact skipSpace_cons_of_not ':' _ (by decide)
    · rw [parseValue_space]
      exact hv
    · rw [skipSpace_newline]
      exact skipSpace_cons_of_not '\x7d' _ (by decide)
  | (k, v) :: m :: ms, d, d', fuel, nesting, rest => by
    intro _ hraw hdepth hlen
    rw [JSON.indentedMembers] at hlen ⊢
    rw [JSON.membersDepth] at hdepth
    rw [JSON.membersNoRaw, Bool.and_eq_true] at hraw
    simp only [List.length_cons, List.length_append] at hlen
    have h2 := encodeString_length k
    obtain ⟨f, rfl⟩ : ∃ f, fuel = f + 1 := ⟨fuel - 1, by omega⟩
    have hv := parseValue_indented v d f nesting (',' :: (newline d ++
      (JSON.indentedMembers d (m :: ms) ++ (newline d' ++ '\x7d' :: rest)))) hraw.1
      (by omega) (by omega)
    have hms := parseMembers_indented (m :: ms) d d' f nesting rest (by simp) hraw.2
      (by omega) (by omega)
    apply parseMembers_more f nesting _ (':' :: ' ' :: (JSON.indented d v ++ (',' :: (newline d ++
        (JSON.indentedMembers d (m :: ms) ++ (newline d' ++ '\x7d' :: rest))))))
      (' ' :: (JSON.indented d v ++ (',' :: (newline d ++
        (JSON.indentedMembers d (m :: ms) ++ (newline d' ++ '\x7d' :: rest))))))
      (',' :: (newline d ++ (JSON.indentedMembers d (m :: ms) ++
        (newline d' ++ '\x7d' :: rest))))
      (newline d ++ (JSON.indentedMembers d (m :: ms) ++ (newline d' ++ '\x7d' :: rest)))
      rest k v (m :: ms)
    · rw [List.append_assoc, skipSpace_encodeString, parseString_encodeString]
      simp
    · exact skipSpace_cons_of_not ':' _ (by decide)
    · rw [parseValue_space]
      exact hv
    · exact skipSpace_cons_of_not ',' _ (by decide)
    · rw [parseMembers_newline]
      exact hms
end

/-- Reading the document `json.MarshalIndent` writes for a value gives the
value back. -/
theorem parseDocument_MarshalIndent (v : JSON) (hraw : JSON.noRaw v = true)
    (hdepth : JSON.depth v ≤ maxNestingDepth) : parseDocument (MarshalIndent v) = some v := by
  unfold parseDocument MarshalIndent
  have h := parseValue_indented v 0 ((JSON.indented 0 v).length + 1) 0 [] hraw (by omega)
    (by omega)
  rw [List.append_nil] at h
  simp only [h]
  rfl

/-! ## Lemmas on the sorting of map keys -/

theorem keyLess_asymm : ∀ a b : List Char, keyLess a b = true → keyLess b a = false
  | [], [] => by intro h; rfl
  | [], _ :: _ => by intro _; rfl
  | _ :: _, [] => by
    intro h
    rw [keyLess] at h
    cases h
  | a :: as, b :: bs => by
    intro h
    rw [keyLess] at h ⊢
    by_cases h1 : a.toNat < b.toNat
    · have h2 : ¬ b.toNat < a.toNat := by omega
      have h3 : ¬ b.toNat = a.toNat := by omega
      simp [h2, h3]
    · by_cases h2 : a.toNat = b.toNat
      · rw [if_neg h1, if_pos h2] at h
        have h3 : ¬ b.toNat < a.toNat := by omega
        rw [if_neg h3, if_pos h2.symm]
        exact keyLess_asymm as bs h
      · simp [h1, h2] at h

theorem insertMember_head (e : String × JSON) (l : List (String × JSON)) :
    (insertMember e l).head? = some e ∨ (insertMember e l).head? = l.head? := by
  cases l with
  | nil => left; rfl
  | cons x rest =>
    rw [insertMember]
    by_cases h : keyLess x.1.data e.1.data = true
    · right
      simp [h]
    · left
      simp [h]

theorem insertMember_inKeyOrder (e : String × JSON) (l : List (String × JSON))
    (h : InKeyOrder l) : InKeyOrder (insertMember e l) := by
  induction l with
  | nil => exact List.chain'_singleton e
  | cons x rest ih =>
    unfold InKeyOrder at h ih ⊢
    rw [insertMember]
    by_cases hx : keyLess x.1.data e.1.data = true
    · rw [if_pos hx]
      rw [List.chain'_cons'] at h ⊢
      refine ⟨?_, ih h.2⟩
      intro y hy
      rcases insertMember_head e rest with hh | hh
      · rw [hh] at hy
        cases hy
        exact keyLess_asymm _ _ hx
      · rw [hh] at hy
        exact h.1 y hy
    · rw [if_neg hx]
      rw [List.chain'_cons]
      exact ⟨by simpa using hx, h⟩

theorem sortMembers_inKeyOrder (l : List (String × JSON)) : InKeyOrder (sortMembers l) := by
  induction l with
  | nil => exact List.chain'_nil
  | cons e rest ih =>
    rw [sortMembers]
    exact insertMember_inKeyOrder e _ ih

/-- Sorting members that are in key order leaves them as they are. -/
theorem sortMembers_of_inKeyOrder (l : List (String × JSON)) (h : InKeyOrder l) :
    sortMembers l = l := by
  induction l with
  | nil => rfl
  | cons e rest ih =>
    unfold InKeyOrder at h ih
    rw [List.chain'_cons'] at h
    rw [sortMembers, ih h.2]
    cases rest with
    | nil => rfl
    | cons x rest2 =>
      rw [insertMember]
      have hx := h.1 x rfl
      simp [hx]

theorem sortMembers_idem (l : List (String × JSON)) :
    sortMembers (sortMembers l) = sortMembers l :=
  sortMembers_of_inKeyOrder _ (sortMembers_inKeyOrder l)

theorem insertMember_perm (e : String × JSON) (l : List (String × JSON)) :
    (insertMember e l).Perm (e :: l) := by
  induction l with
  | nil => exact List.Perm.refl _
  | cons x rest ih =>
    rw [insertMember]
    by_cases hx : keyLess x.1.data e.1.data = true
    · rw [if_pos hx]
      exact ((List.perm_cons x).2 ih).trans (List.Perm.swap e x rest)
    · rw [if_neg hx]

theorem sortMembers_perm (l : List (String × JSON)) : (sortMembers l).Perm l := by
  induction l with
  | nil => exact List.Perm.refl _
  | cons e rest ih =>
    rw [sortMembers]
    exact (insertMember_perm e _).trans ((List.perm_cons e).2 ih)

theorem sortMembers_isEmpty (l : List (String × JSON)) :
    (sortMembers l).isEmpty = l.isEmpty := by
  have h := (sortMembers_perm l).length_eq
  cases l with
  | nil => rfl
  | cons e rest =>
    cases hs : sortMembers (e :: rest) with
    | nil => rw [hs] at h; simp at h
    | cons a b => rfl

/-! ## Lemmas on the decoder: storing a value into the structs -/

theorem omitEmptyMap_sortMembers (key : String) (X : List (String × JSON)) :
    omitEmptyMap key (sortMembers X) = omitEmptyMap key X := by
  unfold omitEmptyMap
  rw [sortMembers_isEmpty, sortMembers_idem]

/-- Storing the encoding of a flag record into a zero record gives the
record back. -/
theorem flagJSON_ofJSON_toJSON (f : flagJSON) : flagJSON.ofJSON f.toJSON = some f := by
  obtain ⟨a, b, c, d⟩ := f
  simp only [flagJSON.toJSON, flagJSON.members, omitEmpty_eq, flagJSON.ofJSON]
  by_cases ha : a = "" <;> by_cases hb : b = "" <;> by_cases hc : c = "" <;>
    by_cases hd : d = "" <;>
    simp +decide [ha, hb, hc, hd, flagJSON.decodeFields, decodeString]

theorem GoString.ofString_toValid (u : GoString) (h : u.isUTF8 = true) :
    GoString.ofString u.toValid = u := by
  induction u with
  | nil => rfl
  | cons e rest ih =>
    simp only [GoString.isUTF8, List.all_cons, Bool.and_eq_true] at h
    have ih2 := ih h.2
    simp only [GoString.ofString, GoString.toValid, List.map_cons, List.map_map] at ih2 ⊢
    rw [ih2]
    cases e with
    | rune c => rfl
    | byte b => exact absurd h.1 (by simp [GoUnit.isRune])

theorem omitEmptyGo_eq (key : String) (u : GoString) (h : u.isUTF8 = true) :
    omitEmptyGo key u = if u = [] then [] else [(key, JSON.str u.toValid)] := by
  unfold omitEmptyGo JSON.ofGoString
  cases u with
  | nil => rfl
  | cons e rest => simp [h]

/-- Storing the encoding of an `info` whose description is well-formed UTF-8
into a zero `info` gives it back. -/
theorem info_decode_toJSON (i : info) (h : i.Description.isUTF8 = true) :
    info.decode i.toJSON ⟨"", [], "", ""⟩ = some i := by
  obtain ⟨a, b, c, d⟩ := i
  simp only at h
  simp only [info.toJSON, omitEmpty_eq, omitEmptyGo_eq "description" b h, info.decode]
  by_cases ha : a = "" <;> by_cases hb : b = [] <;> by_cases hd : d = "" <;>
    simp +decide [ha, hb, hd, info.decodeFields, decodeString, decodeGoString,
      GoString.ofString_toValid b h]

/-- Members with pairwise distinct keys whose values are encodings of flag
records are stored as one entry a member, in order. -/
theorem decodeFlagMap_members (ms : List (String × JSON)) :
    ∀ acc : GoMap flagJSON, (ms.map Prod.fst).Nodup →
      (∀ k ∈ ms.map Prod.fst, k ∉ GoMap.keys acc) →
      (∀ e ∈ ms, ∃ f : flagJSON, e.2 = f.toJSON) →
      ∃ L : GoMap flagJSON, decodeFlagMap ms acc = some (acc ++ L) ∧ flagsToJSON L = ms := by
  induction ms with
  | nil =>
    intro acc _ _ _
    exact ⟨[], by simp [decodeFlagMap], rfl⟩
  | cons e rest ih =>
    intro acc hnd hfresh hval
    obtain ⟨k, v⟩ := e
    obtain ⟨f, hf⟩ := hval (k, v) (List.mem_cons_self _ _)
    simp only at hf
    simp only [List.map_cons, List.nodup_cons] at hnd
    have hk : k ∉ GoMap.keys acc := hfresh k (by simp)
    have hfresh2 : ∀ k' ∈ rest.map Prod.fst, k' ∉ GoMap.keys (acc ++ [(k, f)]) := by
      intro k' hk' hmem
      rw [GoMap.keys_append] at hmem
      rcases List.mem_append.1 hmem with h | h
      · exact hfresh k' (by simp only [List.map_cons, List.mem_cons]; right; exact hk') h
      · simp only [GoMap.keys, List.map_cons, List.map_nil, List.mem_singleton] at h
        apply hnd.1
        rw [← h]
        exact hk'
    obtain ⟨L, hL, hLj⟩ := ih (acc ++ [(k, f)]) hnd.2 hfresh2
      (fun e he => hval e (List.mem_cons_of_mem _ he))
    refine ⟨(k, f) :: L, ?_, ?_⟩
    · rw [decodeFlagMap, hf, flagJSON_ofJSON_toJSON, Option.some_bind,
        GoMap.assign_of_not_mem k f acc hk, hL]
      simp
    · simp only [flagsToJSON, List.map_cons] at hLj ⊢
      rw [hLj, hf]

theorem commandsToJSON_eq_map (l : List (String × commandJSON)) :
    commandsToJSON l = l.map (fun e => (e.1, commandJSON.toJSON e.2)) := by
  induction l with
  | nil => rw [commandsToJSON]; rfl
  | cons e rest ih =>
    obtain ⟨k, c⟩ := e
    rw [commandsToJSON, ih]
    rfl

/-- Members with pairwise distinct keys whose values can be stored into a
record that encodes to the same value are stored as one entry a member, in
order. -/
theorem decodeCommandMap_members (ms : List (String × JSON)) :
    ∀ acc : List (String × commandJSON), (ms.map Prod.fst).Nodup →
      (∀ k ∈ ms.map Prod.fst, k ∉ GoMap.keys acc) →
      (∀ e ∈ ms, ∃ c : commandJSON, commandJSON.ofJSON e.2 = some c ∧ c.toJSON = e.2) →
      ∃ L : List (String × commandJSON), decodeCommandMap ms acc = some (acc ++ L) ∧
        commandsToJSON L = ms := by
  induction ms with
  | nil =>
    intro acc _ _ _
    exact ⟨[], by rw [decodeCommandMap, List.append_nil], by rw [commandsToJSON]⟩
  | cons e rest ih =>
    intro acc hnd hfresh hval
    obtain ⟨k, v⟩ := e
    obtain ⟨c, hc1, hc2⟩ := hval (k, v) (List.mem_cons_self _ _)
    simp only at hc1 hc2
    simp only [List.map_cons, List.nodup_cons] at hnd
    have hk : k ∉ GoMap.keys acc := hfresh k (by simp)
    have hfresh2 : ∀ k' ∈ rest.map Prod.fst, k' ∉ GoMap.keys (acc ++ [(k, c)]) := by
      intro k' hk' hmem
      rw [GoMap.keys_append] at hmem
      rcases List.mem_append.1 hmem with h | h
      · exact hfresh k' (by simp only [List.map_cons, List.mem_cons]; right; exact hk') h
      · simp only [GoMap.keys, List.map_cons, List.map_nil, List.mem_singleton] at h
        apply hnd.1
        rw [← h]
        exact hk'
    obtain ⟨L, hL, hLj⟩ := ih (acc ++ [(k, c)]) hnd.2 hfresh2
      (fun e he => hval e (List.mem_cons_of_mem _ he))
    refine ⟨(k, c) :: L, ?_, ?_⟩
    · rw [decodeCommandMap, hc1, Option.some_bind,
        GoMap.assign_of_not_mem k c acc hk, hL]
      simp
    · rw [commandsToJSON, hLj, hc2]

/-- The members the encoder writes for a flag mapping with pairwise distinct
keys are stored as a mapping `L` that encodes to the same members. -/
theorem decodeFlags_sorted (flags : GoMap flagJSON) (hnd : (flags.map Prod.fst).Nodup) :
    ∃ L : GoMap flagJSON, flagsToJSON L = sortMembers (flagsToJSON flags) ∧
      (flags = [] → L = []) ∧
      decodeFlags (JSON.obj (sortMembers (flagsToJSON flags))) [] = some L := by
  have hperm := sortMembers_perm (flagsToJSON flags)
  have hkeys : (flagsToJSON flags).map Prod.fst = flags.map Prod.fst := by
    simp [flagsToJSON]
  have hnd2 : ((sortMembers (flagsToJSON flags)).map Prod.fst).Nodup := by
    rw [(hperm.map Prod.fst).nodup_iff, hkeys]
    exact hnd
  have hval : ∀ e ∈ sortMembers (flagsToJSON flags), ∃ f : flagJSON, e.2 = f.toJSON := by
    intro e he
    have he2 := hperm.mem_iff.1 he
    simp only [flagsToJSON, List.mem_map] at he2
    obtain ⟨x, _, hx⟩ := he2
    exact ⟨x.2, by rw [← hx]⟩
  obtain ⟨L, hL, hLj⟩ := decodeFlagMap_members _ [] hnd2 (by intro k _; simp [GoMap.keys]) hval
  refine ⟨L, hLj, ?_, ?_⟩
  · intro he
    subst he
    simp only [flagsToJSON, List.map_nil, sortMembers] at hLj
    cases L with
    | nil => rfl
    | cons a b => simp [flagsToJSON] at hLj
  · simp only [decodeFlags, hL, List.nil_append]

/-- The members the encoder writes for a child-command mapping with pairwise
distinct keys, each of whose records can be stored back, are stored as a
mapping `L` that encodes to the same members. -/
theorem decodeCommands_sorted (subs : List (String × commandJSON))
    (hnd : (subs.map Prod.fst).Nodup)
    (hdec : ∀ e ∈ commandsToJSON subs, ∃ c : commandJSON,
      commandJSON.ofJSON e.2 = some c ∧ c.toJSON = e.2) :
    ∃ L : List (String × commandJSON),
      commandsToJSON L = sortMembers (commandsToJSON subs) ∧
      (subs = [] → L = []) ∧
      decodeCommands (JSON.obj (sortMembers (commandsToJSON subs))) [] = some L := by
  have hperm := sortMembers_perm (commandsToJSON subs)
  have hkeys : (commandsToJSON subs).map Prod.fst = subs.map Prod.fst := by
    rw [commandsToJSON_eq_map]
    simp
  have hnd2 : ((sortMembers (commandsToJSON subs)).map Prod.fst).Nodup := by
    rw [(hperm.map Prod.fst).nodup_iff, hkeys]
    exact hnd
  have hval : ∀ e ∈ sortMembers (commandsToJSON subs), ∃ c : commandJSON,
      commandJSON.ofJSON e.2 = some c ∧ c.toJSON = e.2 := by
    intro e he
    exact hdec e (hperm.mem_iff.1 he)
  obtain ⟨L, hL, hLj⟩ := decodeCommandMap_members _ [] hnd2
    (by intro k _; simp [GoMap.keys]) hval
  refine ⟨L, hLj, ?_, ?_⟩
  · intro he
    subst he
    rw [commandsToJSON, sortMembers] at hLj
    cases L with
    | nil => rfl
    | cons a b =>
      obtain ⟨k, c⟩ := a
      rw [commandsToJSON] at hLj
      cases hLj
  · rw [decodeCommands, hL, List.nil_append]

theorem commandJSON_decodeFields_append (a b : List (String × JSON)) :
    ∀ c : commandJSON, commandJSON.decodeFields (a ++ b) c =
      (commandJSON.decodeFields a c).bind (commandJSON.decodeFields b) := by
  induction a with
  | nil =>
    intro c
    rw [List.nil_append, commandJSON.decodeFields, Option.some_bind]
  | cons e rest ih =>
    intro c
    obtain ⟨k, v⟩ := e
    rw [List.cons_append, commandJSON.decodeFields, commandJSON.decodeFields]
    split_ifs <;> simp only [ih, Option.bind_assoc]

theorem spec_decodeFields_append (a b : List (String × JSON)) :
    ∀ s : spec, spec.decodeFields (a ++ b) s =
      (spec.decodeFields a s).bind (spec.decodeFields b) := by
  induction a with
  | nil =>
    intro s
    rw [List.nil_append, spec.decodeFields, Option.some_bind]
  | cons e rest ih =>
    intro s
    obtain ⟨k, v⟩ := e
    rw [List.cons_append, spec.decodeFields, spec.decodeFields]
    split_ifs <;> simp only [ih, Option.bind_assoc]

theorem commandJSON_decode_alias (a st d : String) (l : GoString) (F : GoMap flagJSON)
    (S : List (String × commandJSON)) :
    commandJSON.decodeFields (omitEmpty "alias" a) ⟨"", l, st, d, F, S⟩ =
      some ⟨a, l, st, d, F, S⟩ := by
  rw [omitEmpty_eq]
  by_cases h : a = "" <;> simp +decide [h, commandJSON.decodeFields, decodeString]

theorem commandJSON_decode_description (a st d : String) (l : GoString)
    (hl : l.isUTF8 = true) (F : GoMap flagJSON) (S : List (String × commandJSON)) :
    commandJSON.decodeFields (omitEmptyGo "description" l) ⟨a, [], st, d, F, S⟩ =
      some ⟨a, l, st, d, F, S⟩ := by
  rw [omitEmptyGo_eq "description" l hl]
  by_cases h : l = [] <;>
    simp +decide [h, commandJSON.decodeFields, decodeString, decodeGoString,
      GoString.ofString_toValid l hl]

theorem commandJSON_decode_stability (a st d : String) (l : GoString) (F : GoMap flagJSON)
    (S : List (String × commandJSON)) :
    commandJSON.decodeFields (omitEmpty "x-qlik-stability" st) ⟨a, l, "", d, F, S⟩ =
      some ⟨a, l, st, d, F, S⟩ := by
  rw [omitEmpty_eq]
  by_cases h : st = "" <;> simp +decide [h, commandJSON.decodeFields, decodeString]

theorem commandJSON_decode_deprecated (a st d : String) (l : GoString) (F : GoMap flagJSON)
    (S : List (String × commandJSON)) :
    commandJSON.decodeFields (omitEmpty "deprecated" d) ⟨a, l, st, "", F, S⟩ =
      some ⟨a, l, st, d, F, S⟩ := by
  rw [omitEmpty_eq]
  by_cases h : d = "" <;> simp +decide [h, commandJSON.decodeFields, decodeString]

theorem commandJSON_decode_flags (a st d : String) (l : GoString) (flags L : GoMap flagJSON)
    (S : List (String × commandJSON)) (h0 : flags = [] → L = [])
    (hL : decodeFlags (JSON.obj (sortMembers (flagsToJSON flags))) [] = some L) :
    commandJSON.decodeFields (omitEmptyMap "flags" (flagsToJSON flags)) ⟨a, l, st, d, [], S⟩ =
      some ⟨a, l, st, d, L, S⟩ := by
  cases flags with
  | nil =>
    rw [h0 rfl]
    simp [flagsToJSON, omitEmptyMap, commandJSON.decodeFields]
  | cons e rest =>
    have hne : (flagsToJSON (e :: rest)).isEmpty = false := by simp [flagsToJSON]
    simp +decide [omitEmptyMap, hne, commandJSON.decodeFields, hL]

theorem commandJSON_decode_commands (a st d : String) (l : GoString) (F : GoMap flagJSON)
    (subs M : List (String × commandJSON)) (h0 : subs = [] → M = [])
    (hM : decodeCommands (JSON.obj (sortMembers (commandsToJSON subs))) [] = some M) :
    commandJSON.decodeFields (omitEmptyMap "commands" (commandsToJSON subs))
        ⟨a, l, st, d, F, []⟩ = some ⟨a, l, st, d, F, M⟩ := by
  cases subs with
  | nil =>
    rw [h0 rfl]
    simp [commandsToJSON, omitEmptyMap, commandJSON.decodeFields]
  | cons e rest =>
    have hne : (commandsToJSON (e :: rest)).isEmpty = false := by
      rw [commandsToJSON_eq_map]
      simp
    simp +decide [omitEmptyMap, hne, commandJSON.decodeFields, hM]

mutual
/-- Storing the encoding of a record with pairwise distinct keys throughout
into a zero record gives a record with the same encoding. -/
theorem commandJSON_ofJSON_toJSON : ∀ c : commandJSON, c.nodupKeys = true →
    c.validUTF8 = true →
    ∃ c' : commandJSON, commandJSON.ofJSON c.toJSON = some c' ∧ c'.toJSON = c.toJSON
  | ⟨a, l, st, d, flags, subs⟩ => by
    intro hwf hutf
    simp only [commandJSON.nodupKeys, Bool.and_eq_true, decide_eq_true_eq] at hwf
    rw [commandJSON.validUTF8, Bool.and_eq_true] at hutf
    obtain ⟨⟨hf, hs⟩, hl⟩ := hwf
    obtain ⟨L, hL1, hL2, hL3⟩ := decodeFlags_sorted flags hf
    obtain ⟨M, hM1, hM2, hM3⟩ :=
      decodeCommands_sorted subs hs (commandsToJSON_decodable subs hl hutf.2)
    refine ⟨⟨a, l, st, d, L, M⟩, ?_, ?_⟩
    · rw [commandJSON.toJSON, commandJSON.ofJSON]
      simp only [commandJSON_decodeFields_append]
      rw [commandJSON_decode_alias, Option.some_bind,
        commandJSON_decode_description a "" "" l hutf.1, Option.some_bind,
        commandJSON_decode_stability, Option.some_bind,
        commandJSON_decode_deprecated, Option.some_bind,
        commandJSON_decode_flags a st d l flags L [] hL2 hL3, Option.some_bind,
        commandJSON_decode_commands a st d l L subs M hM2 hM3]
    · rw [commandJSON.toJSON, commandJSON.toJSON, hL1, hM1, omitEmptyMap_sortMembers,
        omitEmptyMap_sortMembers]
/-- Every value the encoder writes for an entry of a child-command mapping
can be stored into a record with the same encoding. -/
theorem commandsToJSON_decodable : ∀ subs : List (String × commandJSON),
    nodupKeysList subs = true → validUTF8List subs = true →
    ∀ e ∈ commandsToJSON subs, ∃ c : commandJSON,
      commandJSON.ofJSON e.2 = some c ∧ c.toJSON = e.2
  | [] => by
    intro _ _ e he
    rw [commandsToJSON] at he
    simp at he
  | (k, c) :: rest => by
    intro hwf hutf e he
    rw [nodupKeysList, Bool.and_eq_true] at hwf
    rw [validUTF8List, Bool.and_eq_true] at hutf
    rw [commandsToJSON] at he
    rcases List.mem_cons.1 he with h | h
    · rw [h]
      exact commandJSON_ofJSON_toJSON c hwf.1 hutf.1
    · exact commandsToJSON_decodable rest hwf.2 hutf.2 e h
end

theorem spec_decode_name (n cl st : String) (i : info) (F : GoMap flagJSON)
    (S : GoMap commandJSON) :
    spec.decodeFields (omitEmpty "name" n) ⟨"", i, cl, st, F, S⟩ =
      some ⟨n, i, cl, st, F, S⟩ := by
  rw [omitEmpty_eq]
  by_cases h : n = "" <;> simp +decide [h, spec.decodeFields, decodeString]

theorem spec_decode_info (n cl st : String) (i : info) (hi : i.Description.isUTF8 = true)
    (F : GoMap flagJSON) (S : GoMap commandJSON) :
    spec.decodeFields [("info", i.toJSON)] ⟨n, ⟨"", [], "", ""⟩, cl, st, F, S⟩ =
      some ⟨n, i, cl, st, F, S⟩ := by
  simp +decide [spec.decodeFields, info_decode_toJSON i hi]

theorem spec_decode_clispec (n cl st : String) (i : info) (F : GoMap flagJSON)
    (S : GoMap commandJSON) :
    spec.decodeFields (omitEmpty "clispec" cl) ⟨n, i, "", st, F, S⟩ =
      some ⟨n, i, cl, st, F, S⟩ := by
  rw [omitEmpty_eq]
  by_cases h : cl = "" <;> simp +decide [h, spec.decodeFields, decodeString]

theorem spec_decode_stability (n cl st : String) (i : info) (F : GoMap flagJSON)
    (S : GoMap commandJSON) :
    spec.decodeFields (omitEmpty "x-qlik-stability" st) ⟨n, i, cl, "", F, S⟩ =
      some ⟨n, i, cl, st, F, S⟩ := by
  rw [omitEmpty_eq]
  by_cases h : st = "" <;> simp +decide [h, spec.decodeFields, decodeString]

theorem spec_decode_flags (n cl st : String) (i : info) (flags L : GoMap flagJSON)
    (S : GoMap commandJSON) (h0 : flags = [] → L = [])
    (hL : decodeFlags (JSON.obj (sortMembers (flagsToJSON flags))) [] = some L) :
    spec.decodeFields (omitEmptyMap "flags" (flagsToJSON flags)) ⟨n, i, cl, st, [], S⟩ =
      some ⟨n, i, cl, st, L, S⟩ := by
  cases flags with
  | nil =>
    rw [h0 rfl]
    simp [flagsToJSON, omitEmptyMap, spec.decodeFields]
  | cons e rest =>
    have hne : (flagsToJSON (e :: rest)).isEmpty = false := by simp [flagsToJSON]
    simp +decide [omitEmptyMap, hne, spec.decodeFields, hL]

theorem spec_decode_commands (n cl st : String) (i : info) (F : GoMap flagJSON)
    (subs M : GoMap commandJSON) (h0 : subs = [] → M = [])
    (hM : decodeCommands (JSON.obj (sortMembers (commandsToJSON subs))) [] = some M) :
    spec.decodeFields (omitEmptyMap "commands" (commandsToJSON subs))
        ⟨n, i, cl, st, F, []⟩ = some ⟨n, i, cl, st, F, M⟩ := by
  cases subs with
  | nil =>
    rw [h0 rfl]
    simp [commandsToJSON, omitEmptyMap, spec.decodeFields]
  | cons e rest =>
    have hne : (commandsToJSON (e :: rest)).isEmpty = false := by
      rw [commandsToJSON_eq_map]
      simp
    simp +decide [omitEmptyMap, hne, spec.decodeFields, hM]

/-- Storing the encoding of an envelope whose mappings have pairwise distinct
keys throughout and whose descriptions are well-formed UTF-8 into a zero
envelope gives an envelope with the same encoding. -/
theorem spec_ofJSON_toJSON (s : spec) (hf : (s.Flags.map Prod.fst).Nodup)
    (hs : (s.SubCommands.map Prod.fst).Nodup) (hl : nodupKeysList s.SubCommands = true)
    (hi : s.Info.Description.isUTF8 = true) (hu : validUTF8List s.SubCommands = true) :
    ∃ s' : spec, spec.ofJSON s.toJSON = some s' ∧ s'.toJSON = s.toJSON := by
  obtain ⟨n, i, cl, st, flags, subs⟩ := s
  simp only at hf hs hl hi hu
  obtain ⟨L, hL1, hL2, hL3⟩ := decodeFlags_sorted flags hf
  obtain ⟨M, hM1, hM2, hM3⟩ :=
    decodeCommands_sorted subs hs (commandsToJSON_decodable subs hl hu)
  refine ⟨⟨n, i, cl, st, L, M⟩, ?_, ?_⟩
  · unfold spec.toJSON spec.ofJSON
    simp only [spec_decodeFields_append]
    rw [spec_decode_name, Option.some_bind, spec_decode_info n "" "" i hi, Option.some_bind,
      spec_decode_clispec, Option.some_bind, spec_decode_stability, Option.some_bind,
      spec_decode_flags n cl st i flags L [] hL2 hL3, Option.some_bind,
      spec_decode_commands n cl st i L subs M hM2 hM3]
  · unfold spec.toJSON
    simp only [hL1, hM1, omitEmptyMap_sortMembers]

/-! ## Lemmas on the keys of the exported mappings -/

theorem returnFlags_keys_nodup (flags : List Flag) :
    ((returnFlags flags).map Prod.fst).Nodup := by
  have h : ∀ (fl : List Flag) (acc : GoMap flagJSON), (GoMap.keys acc).Nodup →
      (GoMap.keys (fl.foldl (fun m f => GoMap.assign f.Name (flagRecord f) m) acc)).Nodup := by
    intro fl
    induction fl with
    | nil => intro acc hacc; exact hacc
    | cons f rest ih =>
      intro acc hacc
      rw [List.foldl_cons]
      exact ih _ (GoMap.keys_assign_nodup _ _ _ hacc)
  exact h flags [] (by simp [GoMap.keys])

theorem nodupKeysList_iff (l : List (String × commandJSON)) :
    nodupKeysList l = true ↔ ∀ e ∈ l, commandJSON.nodupKeys e.2 = true := by
  induction l with
  | nil => simp [nodupKeysList]
  | cons e rest ih =>
    obtain ⟨k, c⟩ := e
    rw [nodupKeysList, Bool.and_eq_true, ih]
    simp

theorem GoMap.mem_assign {α : Type} (k : String) (v : α) (m : GoMap α) (e : String × α)
    (h : e ∈ GoMap.assign k v m) : e = (k, v) ∨ e ∈ m := by
  induction m with
  | nil =>
    simp only [GoMap.assign, List.mem_singleton] at h
    exact Or.inl h
  | cons x rest ih =>
    obtain ⟨k0, v0⟩ := x
    rw [GoMap.assign] at h
    by_cases h0 : k0 = k
    · rw [if_pos h0] at h
      rcases List.mem_cons.1 h with h | h
      · exact Or.inl h
      · exact Or.inr (List.mem_cons_of_mem _ h)
    · rw [if_neg h0] at h
      rcases List.mem_cons.1 h with h | h
      · exact Or.inr (by rw [h]; exact List.mem_cons_self _ _)
      · rcases ih h with h | h
        · exact Or.inl h
        · exact Or.inr (List.mem_cons_of_mem _ h)

theorem nodupKeysList_assign (k : String) (r : commandJSON) (m : List (String × commandJSON))
    (hr : r.nodupKeys = true) (hm : nodupKeysList m = true) :
    nodupKeysList (GoMap.assign k r m) = true := by
  rw [nodupKeysList_iff] at hm ⊢
  intro e he
  rcases GoMap.mem_assign k r m e he with h | h
  · rw [h]
    exact hr
  · exact hm e h

mutual
/-- The mappings of a record `returnCmdspec` returns have pairwise distinct
keys, throughout. -/
theorem returnCmdspec_nodupKeys : ∀ (c : Command) (r : commandJSON),
    returnCmdspec c = some r → r.nodupKeys = true
  | ⟨use, long, dep, al, ann, fl, cmds⟩, r => by
    intro hr
    rw [returnCmdspec_eq] at hr
    cases hm : returnCommands cmds with
    | none => simp [hm] at hr
    | some m =>
      simp only [hm, Option.map_some', Option.some.injEq] at hr
      have h1 := returnCommandsLoop_nodupKeys cmds [] m hm (by rw [nodupKeysList])
      have h2 := returnCommandsLoop_keys_nodup cmds [] m hm (by simp [GoMap.keys])
      have h3 := returnFlags_keys_nodup fl
      subst hr
      simp only [commandJSON.nodupKeys, Bool.and_eq_true, decide_eq_true_eq]
      exact ⟨⟨h3, h2⟩, h1⟩
theorem returnCommandsLoop_nodupKeys : ∀ (cs : List Command)
    (acc m : List (String × commandJSON)),
    returnCommandsLoop cs acc = some m → nodupKeysList acc = true → nodupKeysList m = true
  | [], acc, m => by
    intro h hacc
    rw [returnCommandsLoop_nil] at h
    cases h
    exact hacc
  | x :: rest, acc, m => by
    intro h hacc
    rw [returnCommandsLoop_cons] at h
    cases hk : firstToken x.Use with
    | none => simp [hk] at h
    | some key =>
      cases hr : returnCmdspec x with
      | none => simp [hk, hr] at h
      | some r =>
        simp only [hk, hr, Option.bind_some] at h
        have hx := returnCmdspec_nodupKeys x r hr
        exact returnCommandsLoop_nodupKeys rest _ m h (nodupKeysList_assign key r acc hx hacc)
end

/-! ## Lemmas on the strings of the exported value -/

theorem JSON.membersNoRaw_append (a b : List (String × JSON)) :
    JSON.membersNoRaw (a ++ b) = (JSON.membersNoRaw a && JSON.membersNoRaw b) := by
  induction a with
  | nil => rw [List.nil_append, JSON.membersNoRaw, Bool.true_and]
  | cons e rest ih =>
    obtain ⟨k, v⟩ := e
    rw [List.cons_append, JSON.membersNoRaw, JSON.membersNoRaw, ih, Bool.and_assoc]

theorem JSON.membersNoRaw_iff (ms : List (String × JSON)) :
    JSON.membersNoRaw ms = true ↔ ∀ e ∈ ms, JSON.noRaw e.2 = true := by
  induction ms with
  | nil => simp [JSON.membersNoRaw]
  | cons e rest ih =>
    obtain ⟨k, v⟩ := e
    rw [JSON.membersNoRaw, Bool.and_eq_true, ih]
    simp

theorem JSON.membersNoRaw_omitEmpty (key value : String) :
    JSON.membersNoRaw (omitEmpty key value) = true := by
  unfold omitEmpty
  split_ifs
  · rw [JSON.membersNoRaw]
  · rw [JSON.membersNoRaw, JSON.membersNoRaw, JSON.noRaw]
    rfl

theorem JSON.membersNoRaw_omitEmptyGo (key : String) (u : GoString) (h : u.isUTF8 = true) :
    JSON.membersNoRaw (omitEmptyGo key u) = true := by
  rw [omitEmptyGo_eq key u h]
  split_ifs
  · rw [JSON.membersNoRaw]
  · rw [JSON.membersNoRaw, JSON.membersNoRaw, JSON.noRaw]
    rfl

theorem JSON.membersNoRaw_omitEmptyMap (key : String) (X : List (String × JSON))
    (h : JSON.membersNoRaw X = true) : JSON.membersNoRaw (omitEmptyMap key X) = true := by
  unfold omitEmptyMap
  split_ifs
  · rw [JSON.membersNoRaw]
  · rw [JSON.membersNoRaw, JSON.membersNoRaw, JSON.noRaw, Bool.and_true, JSON.membersNoRaw_iff]
    intro e he
    exact (JSON.membersNoRaw_iff X).1 h e ((sortMembers_perm X).mem_iff.1 he)

theorem flagsToJSON_noRaw (m : GoMap flagJSON) : JSON.membersNoRaw (flagsToJSON m) = true := by
  rw [JSON.membersNoRaw_iff]
  intro e he
  simp only [flagsToJSON, List.mem_map] at he
  obtain ⟨x, _, hx⟩ := he
  rw [← hx]
  simp only [flagJSON.toJSON, flagJSON.members, JSON.noRaw, JSON.membersNoRaw_append,
    JSON.membersNoRaw_omitEmpty, Bool.and_self]

mutual
/-- The encoding of a record whose descriptions are well-formed UTF-8 has
well-formed strings only. -/
theorem commandJSON_toJSON_noRaw : ∀ c : commandJSON, c.validUTF8 = true →
    JSON.noRaw c.toJSON = true
  | ⟨a, l, st, d, flags, subs⟩ => by
    intro h
    rw [commandJSON.validUTF8, Bool.and_eq_true] at h
    rw [commandJSON.toJSON, JSON.noRaw]
    simp only [JSON.membersNoRaw_append, JSON.membersNoRaw_omitEmpty,
      JSON.membersNoRaw_omitEmptyGo "description" l h.1,
      JSON.membersNoRaw_omitEmptyMap "flags" _ (flagsToJSON_noRaw flags),
      JSON.membersNoRaw_omitEmptyMap "commands" _ (commandsToJSON_noRaw subs h.2),
      Bool.and_self]
theorem commandsToJSON_noRaw : ∀ subs : List (String × commandJSON),
    validUTF8List subs = true → JSON.membersNoRaw (commandsToJSON subs) = true
  | [] => by
    intro _
    rw [commandsToJSON, JSON.membersNoRaw]
  | (k, c) :: rest => by
    intro h
    rw [validUTF8List, Bool.and_eq_true] at h
    rw [commandsToJSON, JSON.membersNoRaw, commandJSON_toJSON_noRaw c h.1,
      commandsToJSON_noRaw rest h.2]
    rfl
end

/-- The encoding of an envelope whose descriptions are well-formed UTF-8 has
well-formed strings only. -/
theorem spec_toJSON_noRaw (s : spec) (hi : s.Info.Description.isUTF8 = true)
    (hu : validUTF8List s.SubCommands = true) : JSON.noRaw s.toJSON = true := by
  obtain ⟨n, i, cl, st, flags, subs⟩ := s
  simp only at hi hu
  have hinfo : JSON.noRaw i.toJSON = true := by
    simp only [info.toJSON, JSON.noRaw, JSON.membersNoRaw_append, JSON.membersNoRaw_omitEmpty,
      JSON.membersNoRaw_omitEmptyGo "description" i.Description hi, JSON.membersNoRaw,
      Bool.and_self]
  unfold spec.toJSON
  rw [JSON.noRaw]
  simp only [JSON.membersNoRaw_append, JSON.membersNoRaw_omitEmpty,
    JSON.membersNoRaw_omitEmptyMap "flags" _ (flagsToJSON_noRaw flags),
    JSON.membersNoRaw_omitEmptyMap "commands" _ (commandsToJSON_noRaw subs hu),
    JSON.membersNoRaw, hinfo, Bool.and_self]

theorem validUTF8List_iff (l : List (String × commandJSON)) :
    validUTF8List l = true ↔ ∀ e ∈ l, commandJSON.validUTF8 e.2 = true := by
  induction l with
  | nil => simp [validUTF8List]
  | cons e rest ih =>
    obtain ⟨k, c⟩ := e
    rw [validUTF8List, Bool.and_eq_true, ih]
    simp

theorem validUTF8List_assign (k : String) (r : commandJSON) (m : List (String × commandJSON))
    (hr : r.validUTF8 = true) (hm : validUTF8List m = true) :
    validUTF8List (GoMap.assign k r m) = true := by
  rw [validUTF8List_iff] at hm ⊢
  intro e he
  rcases GoMap.mem_assign k r m e he with h | h
  · rw [h]
    exact hr
  · exact hm e h

mutual
/-- The descriptions of a record `returnCmdspec` returns for a tree with
well-formed descriptions are well-formed, throughout. -/
theorem returnCmdspec_validUTF8 : ∀ (c : Command) (r : commandJSON),
    returnCmdspec c = some r → c.descriptionsUTF8 = true → r.validUTF8 = true
  | ⟨use, long, dep, al, ann, fl, cmds⟩, r => by
    intro hr hu
    rw [Command.descriptionsUTF8, Bool.and_eq_true] at hu
    rw [returnCmdspec_eq] at hr
    cases hm : returnCommands cmds with
    | none => simp [hm] at hr
    | some m =>
      simp only [hm, Option.map_some', Option.some.injEq] at hr
      have h1 := returnCommandsLoop_validUTF8 cmds [] m hm hu.2 (by rw [validUTF8List])
      subst hr
      rw [commandJSON.validUTF8, Bool.and_eq_true]
      exact ⟨hu.1, h1⟩
theorem returnCommandsLoop_validUTF8 : ∀ (cs : List Command)
    (acc m : List (String × commandJSON)),
    returnCommandsLoop cs acc = some m → descriptionsUTF8List cs = true →
    validUTF8List acc = true → validUTF8List m = true
  | [], acc, m => by
    intro h _ hacc
    rw [returnCommandsLoop_nil] at h
    cases h
    exact hacc
  | x :: rest, acc, m => by
    intro h hu hacc
    rw [descriptionsUTF8List, Bool.and_eq_true] at hu
    rw [returnCommandsLoop_cons] at h
    cases hk : firstToken x.Use with
    | none => simp [hk] at h
    | some key =>
      cases hr : returnCmdspec x with
      | none => simp [hk, hr] at h
      | some r =>
        simp only [hk, hr, Option.bind_some] at h
        have hx := returnCmdspec_validUTF8 x r hr hu.1
        exact returnCommandsLoop_validUTF8 rest _ m h hu.2
          (validUTF8List_assign key r acc hx hacc)
end

/-! ## Lemmas on the nesting limit -/

/-- The decoder fails at an object that lies in `maxNestingDepth` objects. -/
theorem parseValue_exceeds_depth (fuel : Nat) (rest : List Char) :
    parseValue fuel maxNestingDepth ('\x7b' :: rest) = none := by
  cases fuel with
  | zero => rw [parseValue]
  | succ f =>
    rw [parseValue.eq_def]
    simp [skipSpace_cons_of_not '\x7b' _ (by decide)]

/-- For an envelope that nests more than `maxNestingDepth` objects in each
other `json.MarshalIndent` returns an error and the export writes an empty
file, which `json.Unmarshal` does not decode. -/
theorem generateSpec_of_deep (root : Command) (version : String) (s : spec)
    (hs : buildSpec root version = some s) (h : maxNestingDepth < JSON.depth s.toJSON) :
    generateSpec root version = some "" ∧ reencode "" = none := by
  refine ⟨?_, by decide⟩
  unfold generateSpec indentFails
  rw [hs, Option.map_some', decide_eq_true h]
  rfl

set_option maxRecDepth 1000000 in
/-- C13 for the root `exLatin1Root`, whose long description holds a byte
that is not UTF-8: the export writes a document that `json.Unmarshal`
decodes, and encoding the decoded envelope again gives another text, with
the character `U+FFFD` where the document has its escape. -/
theorem reencode_generateSpec_counterexample :
    generateSpec exLatin1Root "v1.0.0" = some exLatin1Text ∧
      reencode exLatin1Text = some exLatin1Reencoded ∧
      exLatin1Reencoded ≠ exLatin1Text := by
  refine ⟨?_, ?_, ?_⟩
  · decide
  · decide
  · decide

/-- C13: for every root whose descendants have a token in their usage
string, whose long descriptions are well-formed UTF-8 throughout, and whose
exported value nests at most `maxNestingDepth` objects in each other, the
export writes a document, and decoding that document into the envelope with
`json.Unmarshal` and encoding the envelope again with `json.MarshalIndent`
and the same indentation gives the same text, character for character. The
strings other than descriptions are well-formed UTF-8 in the embedding. -/
theorem reencode_generateSpec (root : Command) (version : String)
    (hwf : root.wellFormed = true) (hutf : root.descriptionsUTF8 = true)
    (hdepth : exportDepth root version ≤ maxNestingDepth) :
    ∃ text, generateSpec root version = some text ∧ reencode text = some text := by
  have hsome : (returnCommands root.Commands).isSome = true := by
    rw [returnCommands_isSome, hwf]
  obtain ⟨m, hm⟩ := Option.isSome_iff_exists.1 hsome
  have hs := buildSpec_eq root version
  rw [hm, Option.map_some'] at hs
  have h1 := returnCommandsLoop_nodupKeys root.Commands [] m hm (by rw [nodupKeysList])
  have h2 := returnCommandsLoop_keys_nodup root.Commands [] m hm (by simp [GoMap.keys])
  have h3 := returnFlags_keys_nodup root.LocalFlags
  have hroot : root.Long.isUTF8 = true ∧ descriptionsUTF8List root.Commands = true := by
    obtain ⟨use, long, dep, al, ann, fl, cmds⟩ := root
    rw [Command.descriptionsUTF8, Bool.and_eq_true] at hutf
    exact hutf
  have h4 := returnCommandsLoop_validUTF8 root.Commands [] m hm hroot.2 (by rw [validUTF8List])
  obtain ⟨s, hS, hF, hC, hD⟩ : ∃ s : spec, buildSpec root version = some s ∧
      s.Flags = returnFlags root.LocalFlags ∧ s.SubCommands = m ∧
      s.Info.Description = root.Long := ⟨_, hs, rfl, rfl, rfl⟩
  unfold exportDepth at hdepth
  rw [hS] at hdepth
  simp only at hdepth
  rw [← hF] at h3
  rw [← hC] at h1 h2 h4
  rw [← hD] at hroot
  have hraw := spec_toJSON_noRaw s hroot.1 h4
  obtain ⟨s', hdec, henc⟩ := spec_ofJSON_toJSON s h3 h2 h1 hroot.1 h4
  have hfail : indentFails s.toJSON = false := by
    unfold indentFails
    exact decide_eq_false (Nat.not_lt.mpr hdepth)
  refine ⟨MarshalIndent s.toJSON, ?_, ?_⟩
  · unfold generateSpec
    rw [hS, Option.map_some', hfail]
    rfl
  · unfold reencode Unmarshal
    rw [parseDocument_MarshalIndent _ hraw hdepth, Option.some_bind, hdec, Option.some_bind,
      henc, hfail]
    rfl

set_option maxRecDepth 1000000 in
/-- C13 at the root `root` with the child `build` and its flag `--out`, for
the version `v1.0.0`. -/
theorem reencode_generateSpec_witness :
    generateSpec exRoot "v1.0.0" = some exSpecText ∧ reencode exSpecText = some exSpecText := by
  obtain ⟨text, h1, h2⟩ := reencode_generateSpec exRoot "v1.0.0" (by decide) (by decide)
    (by decide)
  have h3 : generateSpec exRoot "v1.0.0" = some exSpecText := by decide
  rw [h3] at h1
  cases h1
  exact ⟨h3, h2⟩

end Standard
